import Mathlib

/-!
Shallow embedding of the JSON transcoding engine in
src/packages/types/lib/values.js: value model, recursive cloner
(`Cloner.clone`), error accumulation (`Builder`) and the three entry
points `fromJSON`, `fromDefaultJSON`, `toJSON`. External type-model
capabilities (validity predicate, structural comparison, union branch
resolution, record constructor) are modelled from the spec where noted.
-/

namespace Avsc

/-- Model of a JavaScript runtime value as used by the transcoder:
undefined, null, booleans, numbers (restricted to integers, the only
numbers the examined code paths need), strings, Buffers (byte lists),
arrays and plain string-keyed objects in insertion order. -/
inductive JSValue where
  | vundef
  | vnull
  | vbool (b : Bool)
  | vnum (n : Int)
  | vstr (s : String)
  | vbuf (bs : List Nat)
  | varr (xs : List JSValue)
  | vobj (kvs : List (String × JSValue))

/-- One step of an error path: a field or map key name, or an array
index (the code pushes strings and numbers into the path list). -/
inductive Step where
  | fld (s : String)
  | idx (n : Nat)
deriving DecidableEq

/-- Model of the JavaScript typeof operator on embedded values. -/
def jsTypeof : JSValue → String
  | .vundef => "undefined"
  | .vnull => "object"
  | .vbool _ => "boolean"
  | .vnum _ => "number"
  | .vstr _ => "string"
  | .vbuf _ => "object"
  | .varr _ => "object"
  | .vobj _ => "object"

/-- Model of JavaScript truthiness on embedded values. -/
def jsTruthy : JSValue → Bool
  | .vundef => false
  | .vnull => false
  | .vbool b => b
  | .vnum n => n != 0
  | .vstr s => s != ""
  | .vbuf _ => true
  | .varr _ => true
  | .vobj _ => true

/-- Test for the JavaScript undefined value (the === undefined checks
of the field loop). -/
def isUndef : JSValue → Bool
  | .vundef => true
  | _ => false

/-- First-match lookup in an association list, modelling JavaScript
object property access (object literals never carry duplicate keys). -/
def lookupFirst : List (String × JSValue) → String → Option JSValue
  | [], _ => none
  | (k, v) :: rest, key => if k = key then some v else lookupFirst rest key

/-- Canonical decimal string of a natural number index. -/
def natKey (n : Nat) : String := toString n

/-- Model of JavaScript property read `any[key]`: first match on plain
objects, canonical index strings on arrays and Buffers, undefined
otherwise or when absent (non-index array properties such as length are
not modelled; no examined code path reads them). -/
def jsGet (v : JSValue) (key : String) : JSValue :=
  match v with
  | .vobj kvs => (lookupFirst kvs key).getD .vundef
  | .varr xs =>
      (match (List.range xs.length).find? (fun i => natKey i = key) with
       | some i => xs.getD i .vundef
       | none => .vundef)
  | .vbuf bs =>
      (match (List.range bs.length).find? (fun i => natKey i = key) with
       | some i => .vnum (bs.getD i 0)
       | none => .vundef)
  | _ => (.vundef)

/-- Entries of the string-keyed mapping a JavaScript array presents to
Object.keys and property reads: its elements keyed by index strings. -/
def indexPairs (xs : List JSValue) : List (String × JSValue) :=
  (List.range xs.length).map (fun i => (natKey i, xs.getD i .vundef))

/-- Model of Object.keys: own enumerable keys, i.e. insertion-order keys
for plain objects and index strings for arrays and Buffers. -/
def jsKeys : JSValue → List String
  | .vobj kvs => kvs.map Prod.fst
  | .varr xs => (List.range xs.length).map natKey
  | .vbuf bs => (List.range bs.length).map natKey
  | _ => []

/-- Byte list of a string under the Node binary (latin1) encoding: each
code point is truncated to its low byte, modelling bufferFrom(s, binary)
from utils. -/
def strToBytes (s : String) : List Nat := s.data.map (fun c => c.toNat % 256)

/-- String holding one character per byte, modelling
Buffer.prototype.toString with the binary (latin1) encoding. -/
def bytesToStr (bs : List Nat) : String := String.mk (bs.map (fun b => Char.ofNat (b % 256)))

/-- Lexicographic comparison of character lists by code point, the order
the default Array.prototype.sort comparator applies to strings. -/
def listCharLe : List Char → List Char → Bool
  | [], _ => true
  | _ :: _, [] => false
  | a :: as, b :: bs =>
      a.toNat < b.toNat || (a.toNat = b.toNat && listCharLe as bs)

/-- String comparison used by the key sort in the map case. -/
def strLe (s t : String) : Bool := listCharLe s.data t.data

/-- Relation form of strLe. -/
def strLeProp (a b : String) : Prop := strLe a b = true

instance : DecidableRel strLeProp :=
  fun a b => inferInstanceAs (Decidable (strLe a b = true))

/-- Ascending lexicographic sort of a key list, modelling
Object.keys(any).sort() (a stable comparison-sort; on the distinct keys
an object carries every correct sort agrees). -/
def sortStrings (l : List String) : List String :=
  List.insertionSort strLeProp l

/-- Model of a resolved type-graph node (the external Type Model of the
spec): primitives, the two buffer kinds, arrays, maps, records and error
records (field = name, type, optional schema default), wrapped and
unwrapped unions, and logical types whose two conversion hooks are
arbitrary functions that either return a value or raise a message. -/
inductive AType where
  | tnull
  | tbool
  | tint
  | tstr
  | tbytes
  | tfixed (name : String) (size : Nat)
  | tarr (itemsType : AType)
  | tmap (valuesType : AType)
  | trec (name : String) (isErr : Bool) (fields : List (String × AType × Option JSValue))
  | tunion (wrapped : Bool) (types : List AType)
  | tlogical (name : String) (toValueHook fromValueHook : JSValue → Except String JSValue) (underlyingType : AType)

/-- Category tag of a type node, as the typeName property the dispatch
switch and the union null-branch checks consult. -/
def typeName : AType → String
  | .tnull => "null"
  | .tbool => "boolean"
  | .tint => "int"
  | .tstr => "string"
  | .tbytes => "bytes"
  | .tfixed _ _ => "fixed"
  | .tarr _ => "array"
  | .tmap _ => "map"
  | .trec _ isErr _ => if isErr then "error" else "record"
  | .tunion true _ => "union:wrapped"
  | .tunion false _ => "union:unwrapped"
  | .tlogical n _ _ _ => "logical:" ++ n

/-- Modelled from the spec: branch name of a type as the external type
model exposes it (named types use their name, primitives their category,
logical types the name of their underlying type). -/
def branchName : AType → String
  | .tfixed n _ => n
  | .trec n _ _ => n
  | .tlogical _ _ _ u => branchName u
  | t => typeName t

/-- Human-readable description of an expected type, following typeInfo
in the source (unions list their branch names, logical types show both
names). -/
def typeInfo : AType → String
  | .tunion _ bs =>
      "a type among " ++ String.intercalate ", " (bs.map branchName)
  | .tlogical n toV fromV u =>
      "type " ++ typeName (.tlogical n toV fromV u) ++ " (" ++ branchName u ++ ")"
  | t => "type " ++ branchName t

/-- Modelled from the spec: the validity predicate the type model offers
for concrete values under primitive and buffer types (isValid). -/
def isValid : AType → JSValue → Bool
  | .tnull, .vnull => true
  | .tbool, .vbool _ => true
  | .tint, .vnum n => decide (-(2 ^ 31 : Int) ≤ n) && decide (n < 2 ^ 31)
  | .tstr, .vstr _ => true
  | .tbytes, .vbuf _ => true
  | .tfixed _ k, .vbuf bs => bs.length == k
  | _, _ => false

/-- Runtime bucket of a value (derived from typeof), the discriminator
the unwrapped-union branch resolution of the type model keys on. -/
def jsBucket : JSValue → String
  | .vundef => "undefined"
  | .vnull => "null"
  | .vbool _ => "boolean"
  | .vnum _ => "number"
  | .vstr _ => "string"
  | .vbuf _ => "object"
  | .varr _ => "object"
  | .vobj _ => "object"

/-- Runtime bucket a value of the given type falls into. -/
def typeBucket : AType → String
  | .tnull => "null"
  | .tbool => "boolean"
  | .tint => "number"
  | .tstr => "string"
  | .tbytes => "object"
  | .tfixed _ _ => "object"
  | .tarr _ => "object"
  | .tmap _ => "object"
  | .trec _ _ _ => "object"
  | .tunion _ _ => "union"
  | .tlogical _ _ _ u => typeBucket u

/-- Modelled from the spec: branch type resolution of an unwrapped union
for a raw value (branchType), keyed on the runtime bucket as the type
model requires unwrapped unions to be bucket-unambiguous. -/
def branchTypeOf (bs : List AType) (v : JSValue) : Option AType :=
  bs.find? (fun b => typeBucket b == jsBucket v)

/-- Index variant of branchTypeOf, used by the structural comparison. -/
def branchIdx (bs : List AType) (v : JSValue) : Option Nat :=
  bs.findIdx? (fun b => typeBucket b == jsBucket v)

/-- Modelled from the spec: the wrap operation of a union branch,
producing the single-key object representation keyed by branch name. -/
def wrapBranch (b : AType) (v : JSValue) : JSValue :=
  .vobj [(branchName b, v)]

mutual

/-- Modelled from the spec: the structural equality comparison of the
type model (compare with allowMaps), used for default elision: deep,
type-directed, and insensitive to map key order. -/
def compareEq : AType → JSValue → JSValue → Bool
  | .tnull, .vnull, .vnull => true
  | .tbool, .vbool a, .vbool b => a == b
  | .tint, .vnum a, .vnum b => a == b
  | .tstr, .vstr a, .vstr b => a == b
  | .tbytes, .vbuf a, .vbuf b => a == b
  | .tfixed _ _, .vbuf a, .vbuf b => a == b
  | .tarr it, .varr xs, .varr ys => compareEqList it xs ys
  | .tmap vt, .vobj a, .vobj b =>
      sortStrings (a.map Prod.fst) == sortStrings (b.map Prod.fst) &&
      compareEqKeys vt (a.map Prod.fst) a b
  | .trec _ _ fields, .vobj a, .vobj b => compareEqFields fields a b
  | .tunion _ _, .vnull, .vnull => true
  | .tunion true bs, .vobj [(k, x)], .vobj [(k2, y)] =>
      k == k2 && compareEqWrapped bs k x y
  | .tunion false bs, a, b => compareEqUnwrapped bs a b
  | .tlogical _ toV _ u, a, b =>
      (match toV a, toV b with
       | .ok ua, .ok ub => compareEq u ua ub
       | _, _ => false)
  | _, _, _ => false
termination_by t _ _ => (sizeOf t, 0)

/-- Comparison under the branch of a wrapped union selected by key:
scan the branch list for the first branch with the given name. -/
def compareEqWrapped : List AType → String → JSValue → JSValue → Bool
  | [], _, _, _ => false
  | br :: rest, k, x, y =>
      if branchName br == k then compareEq br x y
      else compareEqWrapped rest k x y
termination_by bs _ _ _ => (sizeOf bs, 1)

/-- Comparison of two bare unwrapped-union values: both must resolve to
the same (first bucket-matching) branch and compare under it. -/
def compareEqUnwrapped : List AType → JSValue → JSValue → Bool
  | [], _, _ => false
  | br :: rest, a, b =>
      (match typeBucket br == jsBucket a, typeBucket br == jsBucket b with
       | true, true => compareEq br a b
       | false, false => compareEqUnwrapped rest a b
       | _, _ => false)
termination_by bs _ _ => (sizeOf bs, 1)

/-- Elementwise comparison of two arrays under the item type. -/
def compareEqList : AType → List JSValue → List JSValue → Bool
  | _, [], [] => true
  | it, x :: xs, y :: ys => compareEq it x y && compareEqList it xs ys
  | _, _, _ => false
termination_by it xs _ => (sizeOf it, xs.length + 1)

/-- Per-key comparison of two maps under the value type. -/
def compareEqKeys : AType → List String → List (String × JSValue) → List (String × JSValue) → Bool
  | _, [], _, _ => true
  | vt, k :: ks, a, b =>
      compareEq vt ((lookupFirst a k).getD .vundef) ((lookupFirst b k).getD .vundef) &&
      compareEqKeys vt ks a b
termination_by vt ks _ _ => (sizeOf vt, ks.length + 1)

/-- Per-field comparison of two record values. -/
def compareEqFields : List (String × AType × Option JSValue) → List (String × JSValue) → List (String × JSValue) → Bool
  | [], _, _ => true
  | (n, fty, _) :: rest, a, b =>
      compareEq fty ((lookupFirst a n).getD .vundef) ((lookupFirst b n).getD .vundef) &&
      compareEqFields rest a b
termination_by fs _ _ => (sizeOf fs, 0)

end

mutual

/-- Model of the %j formatting directive (JSON.stringify with the
util.format fallback): undefined prints as undefined at top level,
becomes null inside arrays and is skipped inside objects; Buffers use
their JSON form; string escaping is not modelled. -/
def jstr : JSValue → String
  | .vundef => "undefined"
  | .vnull => "null"
  | .vbool true => "true"
  | .vbool false => "false"
  | .vnum n => toString n
  | .vstr s => "\"" ++ s ++ "\""
  | .vbuf bs =>
      "\x7b\"type\":\"Buffer\",\"data\":[" ++
        String.intercalate "," (bs.map toString) ++ "]\x7d"
  | .varr xs => "[" ++ String.intercalate "," (jstrItems xs) ++ "]"
  | .vobj kvs => "\x7b" ++ String.intercalate "," (jstrProps kvs) ++ "\x7d"
termination_by v => sizeOf v

/-- Rendered array elements (undefined rendered as null). -/
def jstrItems : List JSValue → List String
  | [] => []
  | .vundef :: xs => "null" :: jstrItems xs
  | x :: xs => jstr x :: jstrItems xs
termination_by xs => sizeOf xs

/-- Rendered object properties (undefined-valued properties skipped). -/
def jstrProps : List (String × JSValue) → List String
  | [] => []
  | (_, .vundef) :: rest => jstrProps rest
  | (k, v) :: rest => ("\"" ++ k ++ "\":" ++ jstr v) :: jstrProps rest
termination_by kvs => sizeOf kvs

end

/-- Approximation of the isNaN(Number(s)) test joinPath applies to a
path part: the empty string and digit-only strings count as numeric
(further numeric literal shapes such as decimals or signs are not
modelled; the examined keys are plain identifiers or indices). -/
def jsNumericString (s : String) : Bool := s.data.all Char.isDigit

/-- Rendering of one path step, following joinPath: numeric-looking
parts in brackets, the rest with a leading dot. -/
def stepStr : Step → String
  | .idx n => "[" ++ toString n ++ "]"
  | .fld s => if jsNumericString s then "[" ++ s ++ "]" else "." ++ s

/-- Human-readable location string of a path (joinPath). -/
def joinPath (parts : List Step) : String :=
  String.join (parts.map stepStr)

/-- Structured error as pushed by Builder.addError: the formatted
message plus the offending value, expected type and path carried on the
error object. -/
structure ValueError where
  message : String
  value : JSValue
  expectedType : AType
  path : List Step

/-- Message of one accumulated error, following addError. -/
def errMessage (desc : String) (val : JSValue) (t : AType) (path : List Step) : String :=
  "$" ++ joinPath path ++ " has " ++ typeInfo t ++ " but " ++ desc ++ ": " ++ jstr val

/-- Build one structured error. -/
def mkError (desc : String) (val : JSValue) (t : AType) (path : List Step) : ValueError :=
  ⟨errMessage desc val t path, val, t, path⟩

/-- Result accumulator of one recursive call: a value (undefined until
set) and the ordered error list. -/
structure Builder where
  value : JSValue
  errors : List ValueError

/-- Fresh accumulator (value undefined, no errors). -/
def Builder.empty : Builder := ⟨.vundef, []⟩

/-- Whether no error has been accumulated. -/
def Builder.isOk (b : Builder) : Bool := b.errors.isEmpty

/-- Append one error, leaving the value untouched. -/
def Builder.addError (b : Builder) (desc : String) (val : JSValue) (t : AType) (path : List Step) : Builder :=
  ⟨b.value, b.errors ++ [mkError desc val t path]⟩

/-- Append the errors of a child accumulator, in order. -/
def Builder.copyErrorsFrom (b child : Builder) : Builder :=
  ⟨b.value, b.errors ++ child.errors⟩

/-- Aggregated failure raised by the root build step, tagged with the
ERR_AVRO_INCOMPATIBLE_VALUE code and carrying the full structured error
list and the root type. -/
structure IncompatibleError where
  message : String
  code : String
  errors : List ValueError
  rootType : AType

/-- Message of the aggregated failure: the error count, the expected
root type, and one tab-indented line per accumulated error message. -/
def buildMessage (errs : List ValueError) (t : AType) : String :=
  toString errs.length ++ " error(s) when expecting " ++ typeInfo t ++ ":\n" ++
    String.intercalate "\n" (errs.map (fun e => "\t" ++ e.message))

/-- Finalization of an accumulator (Builder.prototype.build): the value
when no error was accumulated, otherwise the single aggregated failure
carrying every error. -/
def Builder.build (b : Builder) (t : AType) : Except IncompatibleError JSValue :=
  match b.errors with
  | [] => .ok b.value
  | _ => .error ⟨buildMessage b.errors t, "ERR_AVRO_INCOMPATIBLE_VALUE", b.errors, t⟩

/-- Transcoding direction, fixed for the lifetime of one Cloner. -/
inductive Mode where
  | TO_JSON
  | FROM_JSON
  | FROM_DEFAULT_JSON
deriving DecidableEq

/-- Entry-point options. -/
structure Opts where
  allowUndeclaredFields : Bool
  omitDefaultValues : Bool

/-- Transcoder configuration (the Cloner fields). -/
structure Cloner where
  mode : Mode
  allowUndeclaredFields : Bool
  omitDefaultValues : Bool

/-- Cloner construction: omitDefaultValues under a mode other than
TO_JSON is a configuration error raised immediately. -/
def mkCloner (mode : Mode) (opts : Opts) : Except String Cloner :=
  if opts.omitDefaultValues && mode != Mode.TO_JSON then
    .error "invalid cloner options"
  else
    .ok ⟨mode, opts.allowUndeclaredFields, opts.omitDefaultValues⟩

/-- Outcome of processing one declared record field: its name, whether
it landed on the missing list, the errors its transcoding contributed,
and the resolved (possibly undefined) value for the constructor args. -/
structure FieldOut where
  name : String
  missing : Bool
  errors : List ValueError
  arg : JSValue

/-- JSON object produced for an error-free record under TO_JSON:
exactly the fields whose resolved value is not undefined, in schema
field order. -/
def jsonRecordValue (outs : List FieldOut) : JSValue :=
  .vobj (outs.filterMap (fun o =>
    match o.arg with
    | .vundef => none
    | a => some (o.name, a)))

/-- Modelled from the spec: the record constructor of the type model
(type.recordConstructor, external), invoked positionally; an undefined
argument of a field that declares a default is replaced by that default
(the spec round-trip property has elided fields reappear as their
schema default). -/
def recordNew (fs : List (String × AType × Option JSValue)) (args : List JSValue) : JSValue :=
  .vobj ((fs.zip args).map (fun fa =>
    (fa.1.1,
     match fa.2 with
     | .vundef => (fa.1.2.2).getD .vundef
     | a => a)))

/-- Exception propagation: run the continuation on the payload of an ok
result and let a raised JavaScript exception pass through unchanged. -/
def orRaise {α β : Type} (x : Except String α) (f : α → Except String β) : Except String β :=
  match x with
  | .error e => .error e
  | .ok a => f a

mutual

/-- Recursive dispatcher Cloner.prototype.clone with its per-category
cases inlined (_onArray, _onMap, _onRecord, _onUnion, _onLogical,
_onPrimitive). The error result models an uncaught JavaScript exception
escaping the traversal; the ok result is the accumulator. -/
def Cloner.clone (c : Cloner) (any : JSValue) (t : AType) (path : List Step) : Except String Builder :=
  match t with
  | .tarr itemsType =>
      (match any with
       | .varr xs =>
          orRaise (Cloner.cloneItems c xs itemsType path 0) (fun bs =>
            let errs := (bs.map Builder.errors).flatten
            .ok ⟨if errs.isEmpty then .varr (bs.map Builder.value) else .vundef, errs⟩)
       | _ => .ok (Builder.empty.addError "is not an array" any t path))
  | .tmap valuesType =>
      if !(jsTruthy any) || jsTypeof any != "object" then
        .ok (Builder.empty.addError "is not a valid object" any t path)
      else
        orRaise (Cloner.cloneEntries c any (sortStrings (jsKeys any)) valuesType path) (fun ebs =>
          let errs := (ebs.map (fun kb => kb.2.errors)).flatten
          .ok ⟨if errs.isEmpty then .vobj (ebs.map (fun kb => (kb.1, kb.2.value))) else .vundef, errs⟩)
  | .trec nm isErr fields =>
      if !(jsTruthy any) || jsTypeof any != "object" then
        .ok (Builder.empty.addError "is not a valid object" any t path)
      else
        let undeclErrs :=
          if c.allowUndeclaredFields then []
          else
            let extra := (jsKeys any).filter (fun k => !(fields.any (fun f => f.1 == k)))
            if extra.isEmpty then []
            else
              [mkError
                ("contains " ++ toString extra.length ++ " undeclared field(s) (" ++
                  String.intercalate ", " extra ++ ")")
                any (.trec nm isErr fields) path]
        orRaise (Cloner.cloneFields c any fields path) (fun outs =>
          let missing := (outs.filter FieldOut.missing).map FieldOut.name
          let ferrs := (outs.map FieldOut.errors).flatten
          let errs :=
            undeclErrs ++ ferrs ++
              (if missing.isEmpty then []
               else
                 [mkError
                   ("is missing " ++ toString missing.length ++ " field(s) (" ++
                     String.intercalate "," missing ++ ")")
                   any (.trec nm isErr fields) path])
          .ok ⟨if errs.isEmpty then
                 (if c.mode = .TO_JSON then jsonRecordValue outs
                  else recordNew fields (outs.map FieldOut.arg))
               else .vundef,
               errs⟩)
  | .tunion wrapped bs =>
      (match any with
       | .vnull =>
          if bs.any (fun b => typeName b == "null") then .ok ⟨.vnull, []⟩
          else .ok (Builder.empty.addError "is null" any t path)
       | _ =>
          let step : Except String (Builder ⊕ JSValue) :=
            if c.mode = .FROM_DEFAULT_JSON then
              (match bs with
               | [] => .error "TypeError: Cannot read properties of undefined (reading 'typeName')"
               | b0 :: _ =>
                  if typeName b0 == "null" then
                    .ok (.inl (Builder.empty.addError "does not match first (null)" any t path))
                  else .ok (.inr (wrapBranch b0 any)))
            else if c.mode = .TO_JSON && !wrapped then
              (match branchTypeOf bs any with
               | none => .ok (.inl (Builder.empty.addError "is not a valid branch" any t path))
               | some b0 => .ok (.inr (wrapBranch b0 any)))
            else .ok (.inr any)
          orRaise step (fun s =>
            match s with
            | .inl b => .ok b
            | .inr any2 =>
              if jsTypeof any2 != "object" then
                .ok (Builder.empty.addError "is not an object" any2 t path)
              else
                (match jsKeys any2 with
                 | [key] =>
                    orRaise (Cloner.cloneBranch c wrapped bs key (jsGet any2 key) path) (fun ob =>
                      match ob with
                      | some b => .ok b
                      | none =>
                          .ok (Builder.empty.addError
                            ("contains an unknown branch (" ++ key ++ ")") any2 t path))
                 | keys =>
                    .ok (Builder.empty.addError
                      ("has " ++ toString keys.length ++ " keys (" ++
                        String.intercalate "," keys ++ ")")
                      any2 t path))))
  | .tlogical nm toV fromV u =>
      if c.mode = .TO_JSON then
        (match toV any with
         | .error emsg =>
            .ok (Builder.empty.addError
              ("logical type encoding failed (" ++ emsg ++ ")") any (.tlogical nm toV fromV u) path)
         | .ok conv =>
            (match conv with
             | .vundef =>
                .ok (Builder.empty.addError "logical type encoding failed" any (.tlogical nm toV fromV u) path)
             | _ => Cloner.clone c conv u path))
      else
        orRaise (Cloner.clone c any u path) (fun b =>
          if b.errors.isEmpty then
            (match fromV b.value with
             | .ok w => .ok ⟨w, b.errors⟩
             | .error emsg =>
                .ok (b.addError
                  ("logical type decoding failed (" ++ emsg ++ ")") any (.tlogical nm toV fromV u) path))
          else .ok b)
  | _ =>
      let isBufferType :=
        (match t with
         | .tbytes => true
         | .tfixed _ _ => true
         | _ => false)
      if isBufferType && c.mode != .TO_JSON then
        (match any with
         | .vstr s =>
            let val := JSValue.vbuf (strToBytes s)
            if isValid t val then .ok ⟨val, []⟩
            else .ok (Builder.empty.addError "invalid value" any t path)
         | _ => .ok (Builder.empty.addError "is not a string" any t path))
      else
        if isValid t any then
          if c.mode = .TO_JSON && isBufferType then
            (match any with
             | .vbuf bytes => .ok ⟨.vstr (bytesToStr bytes), []⟩
             | _ => .error "TypeError: Cannot read properties of undefined (reading 'toString')")
          else .ok ⟨any, []⟩
        else
          if c.mode = .TO_JSON && isBufferType then
            .error "TypeError: Cannot read properties of undefined (reading 'toString')"
          else .ok (Builder.empty.addError "invalid value" any t path)
termination_by (sizeOf t, 0)

/-- Per-index loop of _onArray: transcode each element at path + [i],
collecting every accumulator (a raised exception aborts the loop). -/
def Cloner.cloneItems (c : Cloner) (xs : List JSValue) (itemsType : AType) (path : List Step) (i : Nat) : Except String (List Builder) :=
  match xs with
  | [] => .ok []
  | x :: rest =>
      orRaise (Cloner.clone c x itemsType (path ++ [.idx i])) (fun b =>
        orRaise (Cloner.cloneItems c rest itemsType path (i + 1)) (fun bs =>
          .ok (b :: bs)))
termination_by (sizeOf itemsType, xs.length + 1)

/-- Per-key loop of _onMap over the sorted key list: transcode the
value at each key at path + [key]. -/
def Cloner.cloneEntries (c : Cloner) (any : JSValue) (keys : List String) (valuesType : AType) (path : List Step) : Except String (List (String × Builder)) :=
  match keys with
  | [] => .ok []
  | k :: rest =>
      orRaise (Cloner.clone c (jsGet any k) valuesType (path ++ [.fld k])) (fun b =>
        orRaise (Cloner.cloneEntries c any rest valuesType path) (fun bs =>
          .ok ((k, b) :: bs)))
termination_by (sizeOf valuesType, keys.length + 1)

/-- Per-field loop of _onRecord over the declared fields: an absent
field with no default is missing; an absent field with a default is
transcoded (default injection) only under TO_JSON without
omitDefaultValues; a present field is transcoded and, under
omitDefaultValues, its value is suppressed when error-free and equal to
the default under the structural comparison. -/
def Cloner.cloneFields (c : Cloner) (any : JSValue) (fs : List (String × AType × Option JSValue)) (path : List Step) : Except String (List FieldOut) :=
  match fs with
  | [] => .ok []
  | (n, fty, dflt) :: rest =>
      let fieldAny := jsGet any n
      let fieldPath := path ++ [Step.fld n]
      let step : Except String FieldOut :=
        if isUndef fieldAny then
          (match dflt with
           | none => .ok ⟨n, true, [], .vundef⟩
           | some d =>
              if c.mode = .TO_JSON && !c.omitDefaultValues then
                orRaise (Cloner.clone c d fty fieldPath) (fun b =>
                  .ok ⟨n, false, [], b.value⟩)
              else .ok ⟨n, false, [], .vundef⟩)
        else
          orRaise (Cloner.clone c fieldAny fty fieldPath) (fun b =>
            let arg :=
              if c.omitDefaultValues && b.errors.isEmpty &&
                  (match dflt with
                   | some d => compareEq fty fieldAny d
                   | none => false) then
                JSValue.vundef
              else b.value
            .ok ⟨n, false, b.errors, arg⟩)
      orRaise step (fun out =>
        orRaise (Cloner.cloneFields c any rest path) (fun outs =>
          .ok (out :: outs)))
termination_by (sizeOf fs, 0)

/-- Branch lookup by name (unionType.type(key)) fused with the recursion
into the keyed value and the per-mode re-wrapping of the child value:
none when no branch carries the key name. -/
def Cloner.cloneBranch (c : Cloner) (wrapped : Bool) (bs : List AType) (key : String) (inner : JSValue) (path : List Step) : Except String (Option Builder) :=
  match bs with
  | [] => .ok none
  | b :: rest =>
      if branchName b == key then
        orRaise (Cloner.clone c inner b (path ++ [.fld key])) (fun bb =>
          .ok (some
            ⟨if bb.errors.isEmpty then
               (if c.mode = .TO_JSON then .vobj [(branchName b, bb.value)]
                else if !wrapped then bb.value
                else wrapBranch b bb.value)
             else .vundef,
             bb.errors⟩))
      else Cloner.cloneBranch c wrapped rest key inner path
termination_by (sizeOf bs, 1)

end

/-- Failure raised by one entry-point call: a configuration error from
the Cloner constructor, an uncaught JavaScript exception from the
traversal, or the aggregated incompatible-value failure from the root
build step. -/
inductive Failure where
  | configError (msg : String)
  | typeError (msg : String)
  | incompatible (err : IncompatibleError)

/-- Shared entry-point body (the internal clone function): construct a
Cloner, run it at the root with an empty path, finalize the root
accumulator. -/
def cloneRoot (mode : Mode) (any : JSValue) (t : AType) (opts : Opts) : Except Failure JSValue :=
  match mkCloner mode opts with
  | .error e => .error (.configError e)
  | .ok c =>
      (match Cloner.clone c any t [] with
       | .error e => .error (.typeError e)
       | .ok b =>
          (match b.build t with
           | .error iv => .error (.incompatible iv)
           | .ok v => .ok v))

/-- Deserialize a value from its JSON encoding (fromJSON). -/
def fromJSON (any : JSValue) (t : AType) (opts : Opts) : Except Failure JSValue :=
  cloneRoot .FROM_JSON any t opts

/-- Deserialize a value from its encoding as a default
(fromDefaultJSON). -/
def fromDefaultJSON (any : JSValue) (t : AType) (opts : Opts) : Except Failure JSValue :=
  cloneRoot .FROM_DEFAULT_JSON any t opts

/-- JSON-serialize a value (toJSON). -/
def toJSON (any : JSValue) (t : AType) (opts : Opts) : Except Failure JSValue :=
  cloneRoot .TO_JSON any t opts

/-- Whether a type node is itself a union (Avro forbids unions as
direct union branches). -/
def isUnionT : AType → Bool
  | .tunion _ _ => true
  | _ => false

mutual

/-- Whether a type contains no logical type anywhere. -/
def noLogical : AType → Bool
  | .tarr it => noLogical it
  | .tmap vt => noLogical vt
  | .trec _ _ fields => noLogicalFields fields
  | .tunion _ bs => noLogicalBranches bs
  | .tlogical _ _ _ _ => false
  | _ => true
termination_by t => (sizeOf t, 0)

/-- noLogical over record fields. -/
def noLogicalFields : List (String × AType × Option JSValue) → Bool
  | [] => true
  | (_, fty, _) :: rest => noLogical fty && noLogicalFields rest
termination_by fs => (sizeOf fs, 1)

/-- noLogical over union branches. -/
def noLogicalBranches : List AType → Bool
  | [] => true
  | b :: rest => noLogical b && noLogicalBranches rest
termination_by bs => (sizeOf bs, 1)

end

mutual

/-- Modelled from the spec: well-formedness of a resolved type graph as
Avro schemas guarantee it (used by the round-trip property): record
field names are distinct, union branch names are distinct, and a union
branch is never itself a union. -/
def wfType : AType → Bool
  | .tarr it => wfType it
  | .tmap vt => wfType vt
  | .trec _ _ fields => decide ((fields.map Prod.fst).Nodup) && wfFields fields
  | .tunion _ bs => decide ((bs.map branchName).Nodup) && wfBranches bs
  | .tlogical _ _ _ u => wfType u
  | _ => true
termination_by t => (sizeOf t, 0)

/-- Well-formedness of record fields. -/
def wfFields : List (String × AType × Option JSValue) → Bool
  | [] => true
  | (_, fty, _) :: rest => wfType fty && wfFields rest
termination_by fs => (sizeOf fs, 1)

/-- Well-formedness of union branches. -/
def wfBranches : List AType → Bool
  | [] => true
  | b :: rest => !(isUnionT b) && wfType b && wfBranches rest
termination_by bs => (sizeOf bs, 1)

end

mutual

/-- Modelled from the spec: deep validity of a value under a type (the
notion "v valid under T" of the round-trip property), following the
type model's recursive isValid. Byte lists must hold actual bytes
(below 256), as Buffers do by construction; a record value carries no
undeclared keys (the transcoder rejects them); a wrapped union value is
null or a single-key object keyed by a branch name; an unwrapped union
value resolves by runtime bucket. -/
def isValidFor : AType → JSValue → Bool
  | .tnull, v => isValid .tnull v
  | .tbool, v => isValid .tbool v
  | .tint, v => isValid .tint v
  | .tstr, v => isValid .tstr v
  | .tbytes, .vbuf bs => bs.all (fun b => decide (b < 256))
  | .tfixed _ k, .vbuf bs => (bs.length == k) && bs.all (fun b => decide (b < 256))
  | .tarr it, .varr xs => validItems it xs
  | .tmap vt, .vobj kvs => validValues vt kvs
  | .trec _ _ fields, .vobj kvs =>
      ((kvs.map Prod.fst).all (fun k => fields.any (fun f => f.1 == k))) &&
      validFields fields kvs
  | .tunion _ bs, .vnull => bs.any (fun b => typeName b == "null")
  | .tunion true bs, .vobj [(k, x)] => validWrapped bs k x
  | .tunion false bs, v => validUnwrapped bs v
  | .tlogical _ toV _ u, v =>
      (match toV v with
       | .ok conv => !(isUndef conv) && isValidFor u conv
       | .error _ => false)
  | _, _ => false
termination_by t _ => (sizeOf t, 0)

/-- Validity of every array element. -/
def validItems : AType → List JSValue → Bool
  | _, [] => true
  | it, x :: xs => isValidFor it x && validItems it xs
termination_by it xs => (sizeOf it, xs.length + 1)

/-- Validity of every map entry value. -/
def validValues : AType → List (String × JSValue) → Bool
  | _, [] => true
  | vt, kv :: rest => isValidFor vt kv.2 && validValues vt rest
termination_by vt kvs => (sizeOf vt, kvs.length + 1)

/-- Validity of every declared record field's value in the given
object. -/
def validFields : List (String × AType × Option JSValue) → List (String × JSValue) → Bool
  | [], _ => true
  | (n, fty, _) :: rest, kvs =>
      isValidFor fty ((lookupFirst kvs n).getD .vundef) && validFields rest kvs
termination_by fs _ => (sizeOf fs, 0)

/-- Validity of a wrapped union value under the branch selected by
key. -/
def validWrapped : List AType → String → JSValue → Bool
  | [], _, _ => false
  | b :: rest, k, x =>
      if branchName b == k then isValidFor b x else validWrapped rest k x
termination_by bs _ _ => (sizeOf bs, 1)

/-- Validity of a bare unwrapped union value under its bucket-resolved
branch. -/
def validUnwrapped : List AType → JSValue → Bool
  | [], _ => false
  | b :: rest, v =>
      if typeBucket b == jsBucket v then isValidFor b v else validUnwrapped rest v
termination_by bs _ => (sizeOf bs, 1)

end

/-! Order facts about the key comparison, and the resulting properties
of the key sort. -/

theorem listCharLe_total : ∀ as bs, listCharLe as bs = true ∨ listCharLe bs as = true := by
  intro as
  induction as with
  | nil => intro bs; left; simp [listCharLe]
  | cons a as ih =>
      intro bs
      cases bs with
      | nil => right; simp [listCharLe]
      | cons b bs =>
          simp only [listCharLe, Bool.or_eq_true, Bool.and_eq_true, decide_eq_true_eq]
          rcases Nat.lt_trichotomy a.toNat b.toNat with h | h | h
          · exact Or.inl (Or.inl h)
          · rcases ih bs with h2 | h2
            · exact Or.inl (Or.inr ⟨h, h2⟩)
            · exact Or.inr (Or.inr ⟨h.symm, h2⟩)
          · exact Or.inr (Or.inl h)

theorem listCharLe_trans : ∀ as bs cs, listCharLe as bs = true → listCharLe bs cs = true →
    listCharLe as cs = true := by
  intro as
  induction as with
  | nil => intro bs cs _ _; simp [listCharLe]
  | cons a as ih =>
      intro bs cs h1 h2
      cases bs with
      | nil => simp [listCharLe] at h1
      | cons b bs =>
          cases cs with
          | nil => simp [listCharLe] at h2
          | cons c cs =>
              simp only [listCharLe, Bool.or_eq_true, Bool.and_eq_true,
                decide_eq_true_eq] at h1 h2 ⊢
              rcases h1 with h1 | ⟨h1e, h1r⟩
              · rcases h2 with h2 | ⟨h2e, h2r⟩
                · exact Or.inl (Nat.lt_trans h1 h2)
                · exact Or.inl (h2e ▸ h1)
              · rcases h2 with h2 | ⟨h2e, h2r⟩
                · exact Or.inl (h1e ▸ h2)
                · exact Or.inr ⟨h1e.trans h2e, ih bs cs h1r h2r⟩

theorem listCharLe_antisymm : ∀ as bs, listCharLe as bs = true → listCharLe bs as = true →
    as = bs := by
  intro as
  induction as with
  | nil =>
      intro bs h1 h2
      cases bs with
      | nil => rfl
      | cons b bs => simp [listCharLe] at h2
  | cons a as ih =>
      intro bs h1 h2
      cases bs with
      | nil => simp [listCharLe] at h1
      | cons b bs =>
          simp only [listCharLe, Bool.or_eq_true, Bool.and_eq_true,
            decide_eq_true_eq] at h1 h2
          rcases h1 with h1 | ⟨h1e, h1r⟩
          · rcases h2 with h2 | ⟨h2e, h2r⟩
            · omega
            · omega
          · rcases h2 with h2 | ⟨h2e, h2r⟩
            · omega
            · have hc : a = b := Char.eq_of_val_eq (UInt32.ext h1e)
              rw [hc, ih bs h1r h2r]

instance : IsTotal String strLeProp := ⟨fun a b => listCharLe_total a.data b.data⟩

instance : IsTrans String strLeProp := ⟨fun a b c => listCharLe_trans a.data b.data c.data⟩

instance : IsAntisymm String strLeProp := by
  constructor
  intro a b h1 h2
  have := listCharLe_antisymm a.data b.data h1 h2
  cases a; cases b; simp_all

theorem sortStrings_perm (l : List String) : (sortStrings l).Perm l :=
  List.perm_insertionSort _ l

theorem sortStrings_sorted (l : List String) : List.Sorted strLeProp (sortStrings l) :=
  List.sorted_insertionSort _ l

theorem sortStrings_eq_of_perm (l l2 : List String) (h : l.Perm l2) :
    sortStrings l = sortStrings l2 :=
  @List.eq_of_perm_of_sorted String strLeProp _ _ _
    (((sortStrings_perm l).trans h).trans (sortStrings_perm l2).symm)
    (sortStrings_sorted l) (sortStrings_sorted l2)

theorem orRaise_ok {α β : Type} (x : Except String α) (f : α → Except String β) (b : β) :
    orRaise x f = .ok b ↔ ∃ a, x = .ok a ∧ f a = .ok b := by
  cases x <;> simp [orRaise]

theorem orRaise_pure {α β : Type} (a : α) (f : α → Except String β) :
    orRaise (.ok a) f = f a := rfl

theorem cloneBranch_toJSON_ok_shape :
    ∀ (bs : List AType) (c : Cloner) (wrapped : Bool) (key : String) (inner : JSValue)
      (path : List Step) (bldr : Builder),
      c.mode = .TO_JSON →
      Cloner.cloneBranch c wrapped bs key inner path = .ok (some bldr) →
      bldr.errors = [] → ∃ bn v, bldr.value = .vobj [(bn, v)] := by
  intro bs
  induction bs with
  | nil =>
      intro c wrapped key inner path bldr hmode h herr
      rw [Cloner.cloneBranch.eq_def] at h
      simp at h
  | cons b rest ih =>
      intro c wrapped key inner path bldr hmode h herr
      rw [Cloner.cloneBranch.eq_def] at h
      by_cases hb : (branchName b == key) = true
      · simp only [hb, if_true, orRaise_ok, Except.ok.injEq, Option.some.injEq] at h
        obtain ⟨bb, hbb, hbldr⟩ := h
        rw [← hbldr] at herr ⊢
        simp only [Builder.errors] at herr
        simp [herr, hmode]
      · simp only [hb, Bool.false_eq_true, if_false] at h
        exact ih c wrapped key inner path bldr hmode h herr

set_option maxHeartbeats 2000000 in
theorem toJSON_ok_value_ne_undef :
    ∀ (N : Nat) (t : AType), sizeOf t ≤ N →
      ∀ (c : Cloner) (any : JSValue) (path : List Step) (b : Builder),
        c.mode = .TO_JSON → Cloner.clone c any t path = .ok b → b.errors = [] →
        b.value ≠ .vundef := by
  intro N
  induction N with
  | zero =>
      intro t ht
      exfalso
      cases t <;> simp at ht
  | succ n ih =>
      intro t ht c any path b hmode hcl herr
      obtain ⟨mode, au, om⟩ := c
      simp only [Cloner.mode] at hmode
      subst hmode
      cases t with
      | tarr itemsType =>
          rw [Cloner.clone.eq_def] at hcl
          cases any <;> simp only [orRaise_ok, Except.ok.injEq] at hcl
          case varr xs =>
            obtain ⟨bs, hbs, hb⟩ := hcl
            rw [← hb] at herr ⊢
            simp only [Builder.errors, Builder.value] at herr ⊢
            simp [herr]
          all_goals (rw [← hcl] at herr; simp [Builder.empty, Builder.addError] at herr)
      | tmap valuesType =>
          rw [Cloner.clone.eq_def] at hcl
          cases any <;>
            simp only [orRaise_ok, Except.ok.injEq, jsTruthy, jsTypeof, Bool.not_true,
              Bool.not_false, Bool.or_true, Bool.true_or, Bool.or_false, Bool.false_or,
              bne_self_eq_false, reduceIte, String.reduceBNe, String.reduceEq, Bool.or_self,
              Bool.not_eq_true, Bool.false_eq_true, Bool.true_eq_false, if_false, if_true] at hcl
          case vbuf | varr | vobj =>
            obtain ⟨ebs, hebs, hb⟩ := hcl
            rw [← hb] at herr ⊢
            simp only [Builder.errors, Builder.value] at herr ⊢
            simp [herr]
          all_goals (rw [← hcl] at herr; simp [Builder.empty, Builder.addError] at herr)
      | trec nm isErr fields =>
          rw [Cloner.clone.eq_def] at hcl
          cases any <;>
            simp only [orRaise_ok, Except.ok.injEq, jsTruthy, jsTypeof, Bool.not_true,
              Bool.not_false, Bool.or_true, Bool.true_or, Bool.or_false, Bool.false_or,
              bne_self_eq_false, reduceIte, String.reduceBNe, String.reduceEq, Bool.or_self,
              Bool.not_eq_true, Bool.false_eq_true, Bool.true_eq_false, if_false, if_true] at hcl
          case vbuf | varr | vobj =>
            obtain ⟨outs, houts, hb⟩ := hcl
            rw [← hb] at herr ⊢
            simp only [Builder.errors, Builder.value] at herr ⊢
            rw [herr]
            simp [jsonRecordValue]
          all_goals (rw [← hcl] at herr; simp [Builder.empty, Builder.addError] at herr)
      | tlogical nm toV fromV u =>
          rw [Cloner.clone.eq_def] at hcl
          simp only [reduceIte] at hcl
          split at hcl
          · simp only [Except.ok.injEq] at hcl
            rw [← hcl] at herr
            simp [Builder.empty, Builder.addError] at herr
          · split at hcl
            · simp only [Except.ok.injEq] at hcl
              rw [← hcl] at herr
              simp [Builder.empty, Builder.addError] at herr
            · have hu : sizeOf u ≤ n := by
                have := AType.tlogical.sizeOf_spec nm toV fromV u
                omega
              exact ih u hu ⟨.TO_JSON, au, om⟩ _ path b rfl hcl herr
      | tunion wrapped bs =>
          rw [Cloner.clone.eq_def] at hcl
          cases any with
          | vnull =>
              simp only [Except.ok.injEq] at hcl
              split at hcl
              · cases hcl
                simp
              · cases hcl
                simp [Builder.empty, Builder.addError] at herr
          | _ =>
              simp only [reduceIte, reduceCtorEq, if_false, if_true, decide_True,
                decide_False, Bool.true_and, Bool.false_and, orRaise_ok,
                Except.ok.injEq] at hcl
              obtain ⟨s, hs, hb⟩ := hcl
              by_cases hw : wrapped
              · simp only [hw, Bool.not_true, Bool.false_eq_true, if_false,
                  Except.ok.injEq] at hs
                rw [← hs] at hb
                simp only [jsTypeof, jsKeys, String.reduceBNe, bne_self_eq_false,
                  Bool.false_eq_true, Bool.true_eq_false, if_false, if_true, reduceIte,
                  bne_iff_ne, ne_eq, String.reduceEq, not_false_eq_true,
                  not_true_eq_false, Except.ok.injEq] at hb
                first
                | (rw [← hb] at herr
                   simp [Builder.empty, Builder.addError] at herr)
                | (split at hb
                   · simp only [orRaise_ok, Except.ok.injEq] at hb
                     obtain ⟨ob, hob, hb2⟩ := hb
                     cases ob with
                     | none =>
                        simp only [Except.ok.injEq] at hb2
                        rw [← hb2] at herr
                        simp [Builder.empty, Builder.addError] at herr
                     | some bldr =>
                        simp only [Except.ok.injEq] at hb2
                        rw [← hb2] at herr ⊢
                        obtain ⟨bn, v, hval⟩ :=
                          cloneBranch_toJSON_ok_shape bs ⟨.TO_JSON, au, om⟩ wrapped _ _ _ _ rfl hob herr
                        simp [hval]
                   · simp only [Except.ok.injEq] at hb
                     rw [← hb] at herr
                     simp [Builder.empty, Builder.addError] at herr)
              · simp only [hw, Bool.not_false, if_true, reduceIte] at hs
                split at hs
                · simp only [Except.ok.injEq] at hs
                  rw [← hs] at hb
                  simp only [Except.ok.injEq] at hb
                  rw [← hb] at herr
                  simp [Builder.empty, Builder.addError] at herr
                · simp only [Except.ok.injEq] at hs
                  rw [← hs] at hb
                  simp only [wrapBranch, jsTypeof, jsKeys, jsGet, lookupFirst,
                    String.reduceBNe, bne_self_eq_false, Bool.false_eq_true, if_false,
                    if_true, reduceIte, List.map_cons, List.map_nil, Option.getD_some,
                    Except.ok.injEq] at hb
                  simp only [orRaise_ok, Except.ok.injEq] at hb
                  obtain ⟨ob, hob, hb2⟩ := hb
                  cases ob with
                  | none =>
                      simp only [Except.ok.injEq] at hb2
                      rw [← hb2] at herr
                      simp [Builder.empty, Builder.addError] at herr
                  | some bldr =>
                      simp only [Except.ok.injEq] at hb2
                      rw [← hb2] at herr ⊢
                      obtain ⟨bn, v, hval⟩ :=
                        cloneBranch_toJSON_ok_shape bs ⟨.TO_JSON, au, om⟩ wrapped _ _ _ _ rfl hob herr
                      simp [hval]
      | _ =>
          rw [Cloner.clone.eq_def] at hcl
          cases any <;>
            simp only [isValid, Bool.and_false, Bool.and_true, Bool.false_and,
              Bool.true_and, bne_self_eq_false, Bool.false_eq_true, Bool.true_eq_false,
              if_false, if_true, reduceIte, reduceCtorEq, decide_True, decide_False,
              Except.ok.injEq, Bool.and_self, Bool.not_true, Bool.not_false] at hcl <;>
            (try split at hcl) <;>
            (try simp only [Except.ok.injEq] at hcl) <;>
            (cases hcl <;>
              (first
               | (simp [Builder.empty, Builder.addError] at herr
                  done)
               | simp))

theorem cloneFields_nil (c : Cloner) (any : JSValue) (path : List Step) :
    Cloner.cloneFields c any [] path = .ok [] := by
  simp only [Cloner.cloneFields]

theorem cloneFields_cons (c : Cloner) (any : JSValue) (n : String) (fty : AType)
    (dflt : Option JSValue) (rest : List (String × AType × Option JSValue)) (path : List Step) :
    Cloner.cloneFields c any ((n, fty, dflt) :: rest) path =
      orRaise
        (if isUndef (jsGet any n) then
          (match dflt with
           | none => .ok ⟨n, true, [], .vundef⟩
           | some d =>
              if c.mode = .TO_JSON && !c.omitDefaultValues then
                orRaise (Cloner.clone c d fty (path ++ [.fld n])) (fun b =>
                  .ok ⟨n, false, [], b.value⟩)
              else .ok ⟨n, false, [], .vundef⟩)
        else
          orRaise (Cloner.clone c (jsGet any n) fty (path ++ [.fld n])) (fun b =>
            .ok ⟨n, false, b.errors,
                 if c.omitDefaultValues && b.errors.isEmpty &&
                     (match dflt with
                      | some d => compareEq fty (jsGet any n) d
                      | none => false) then
                   JSValue.vundef
                 else b.value⟩))
        (fun out => orRaise (Cloner.cloneFields c any rest path) (fun outs =>
          .ok (out :: outs))) := by
  rw [Cloner.cloneFields.eq_def]

theorem isUndef_eq_false (v : JSValue) (h : v ≠ .vundef) : isUndef v = false := by
  cases v <;> first | rfl | exact absurd rfl h

/-- Claim C9: under ToJSON with omitDefaultValues false, a record field
absent from the input but carrying a schema default has the default
itself transcoded, and any errors of that transcoding are discarded:
the field contributes only the (possibly undefined) transcoded value
and the record accumulator stays error-free. -/
theorem toJSON_absent_default_field_errors_discarded :
    ∀ (nm n : String) (isErr : Bool) (fty : AType) (d : JSValue) (path : List Step)
      (au : Bool) (db : Builder),
      Cloner.clone ⟨.TO_JSON, au, false⟩ d fty (path ++ [.fld n]) = .ok db →
      Cloner.clone ⟨.TO_JSON, au, false⟩ (.vobj []) (.trec nm isErr [(n, fty, some d)]) path =
        .ok ⟨.vobj (match db.value with | .vundef => [] | a => [(n, a)]), []⟩ := by
  intro nm n isErr fty d path au db hd
  rw [Cloner.clone.eq_def]
  simp only [jsTruthy, jsTypeof, Bool.not_true, bne_self_eq_false, Bool.or_self,
    Bool.false_eq_true, if_false, reduceIte]
  rw [cloneFields_cons]
  simp [jsTruthy, jsTypeof, jsKeys, jsGet, lookupFirst, isUndef, hd, orRaise_pure,
    cloneFields_nil, jsonRecordValue, orRaise]
  cases hv : db.value <;> simp [hv]

/-- Witness for claim C9 at a concrete input: an invalid int default on
an absent field still yields an error-free empty record object. -/
theorem toJSON_absent_default_field_errors_discarded_witness :
    Cloner.clone ⟨.TO_JSON, false, false⟩ (.vobj [])
        (.trec "R" false [("a", .tint, some (.vstr "bad"))]) [] = .ok ⟨.vobj [], []⟩ := by
  have h := toJSON_absent_default_field_errors_discarded "R" "a" false .tint (.vstr "bad") [] false
      ⟨.vundef, [mkError "invalid value" (.vstr "bad") .tint [Step.fld "a"]]⟩
      (by rw [Cloner.clone.eq_def]; simp [isValid, Builder.empty, Builder.addError])
  simpa using h

/-- Claim C3: for a record field with a declared default and a present
input value, under encodeToJSON the field is suppressed from the JSON
output exactly when omitDefaultValues is on, the recursive transcoding
is error-free, and the raw input value compares structurally equal to
the schema default; with omitDefaultValues off the field is included. -/
theorem omit_default_values_elision :
    ∀ (nm n : String) (isErr : Bool) (fty : AType) (d rawV : JSValue)
      (path : List Step) (au om2 : Bool) (fb : Builder),
      rawV ≠ .vundef →
      Cloner.clone ⟨.TO_JSON, au, om2⟩ rawV fty (path ++ [.fld n]) = .ok fb →
      Cloner.clone ⟨.TO_JSON, au, om2⟩ (.vobj [(n, rawV)]) (.trec nm isErr [(n, fty, some d)]) path =
        .ok ⟨(if fb.errors.isEmpty then
                (if om2 && compareEq fty rawV d then .vobj []
                 else .vobj [(n, fb.value)])
              else .vundef),
             fb.errors⟩ := by
  intro nm n isErr fty d rawV path au om2 fb hnn hd
  have hne : fb.errors = [] → fb.value ≠ .vundef := fun herr =>
    toJSON_ok_value_ne_undef (sizeOf fty) fty le_rfl ⟨.TO_JSON, au, om2⟩ rawV
      (path ++ [.fld n]) fb rfl hd herr
  have hget : jsGet (.vobj [(n, rawV)]) n = rawV := by simp [jsGet, lookupFirst]
  rw [Cloner.clone.eq_def]
  simp only [jsTruthy, jsTypeof, Bool.not_true, bne_self_eq_false, Bool.or_self,
    Bool.false_eq_true, if_false, reduceIte]
  rw [cloneFields_cons]
  rw [hget, isUndef_eq_false rawV hnn, hd]
  simp only [jsTruthy, jsTypeof, jsKeys, List.map_cons, List.map_nil, String.reduceBNe,
    bne_self_eq_false, Bool.false_eq_true, if_false, if_true, reduceIte, Bool.not_true,
    Bool.not_false, Bool.or_false, Bool.false_or, Bool.or_self, beq_self_eq_true,
    List.any_cons, List.any_nil, Bool.or_true, Bool.true_or, List.filter_cons,
    List.filter_nil, List.isEmpty_nil, ite_self, Bool.not_eq_true, orRaise_pure,
    cloneFields_nil, Bool.and_true, Bool.and_false]
  by_cases hee : fb.errors.isEmpty
  · have herr : fb.errors = [] := by simpa [List.isEmpty_iff] using hee
    by_cases hsup : (om2 && compareEq fty rawV d) = true
    · simp [herr, hsup, jsonRecordValue]
    · simp only [herr, hsup, List.isEmpty_nil, Bool.and_true, if_true, if_false,
        Bool.false_eq_true, reduceIte, jsonRecordValue]
      have hv := hne herr
      cases hfv : fb.value <;> simp_all [jsonRecordValue]
  · have herr2 : ¬ fb.errors = [] := by simpa [List.isEmpty_iff] using hee
    simp_all [jsonRecordValue]

/-- Witness for claim C3 at a concrete input: an int field equal to its
default is elided with omitDefaultValues on and kept with it off. -/
theorem omit_default_values_elision_witness :
    Cloner.clone ⟨.TO_JSON, false, true⟩ (.vobj [("a", .vnum 3)])
        (.trec "R" false [("a", .tint, some (.vnum 3))]) [] = .ok ⟨.vobj [], []⟩ ∧
    Cloner.clone ⟨.TO_JSON, false, false⟩ (.vobj [("a", .vnum 3)])
        (.trec "R" false [("a", .tint, some (.vnum 3))]) [] =
      .ok ⟨.vobj [("a", .vnum 3)], []⟩ := by
  constructor
  · have h := omit_default_values_elision "R" "a" false .tint (.vnum 3) (.vnum 3) [] false true
      ⟨.vnum 3, []⟩ (by simp) (by rw [Cloner.clone.eq_def]; simp [isValid])
    simpa [compareEq] using h
  · have h := omit_default_values_elision "R" "a" false .tint (.vnum 3) (.vnum 3) [] false false
      ⟨.vnum 3, []⟩ (by simp) (by rw [Cloner.clone.eq_def]; simp [isValid])
    simpa using h

theorem lookupFirst_perm {kvs kvs2 : List (String × JSValue)} (h : kvs.Perm kvs2)
    (hnd : (kvs.map Prod.fst).Nodup) (k : String) :
    lookupFirst kvs k = lookupFirst kvs2 k := by
  induction h with
  | nil => rfl
  | cons x h ih =>
      obtain ⟨kx, vx⟩ := x
      simp only [lookupFirst]
      simp only [List.map_cons, List.nodup_cons] at hnd
      rw [ih hnd.2]
  | swap x y l =>
      obtain ⟨kx, vx⟩ := x
      obtain ⟨ky, vy⟩ := y
      simp only [List.map_cons, List.nodup_cons, List.mem_cons] at hnd
      have hne : ky ≠ kx := fun he => hnd.1 (Or.inl he)
      simp only [lookupFirst]
      by_cases h1 : ky = k <;> by_cases h2 : kx = k <;> simp [h1, h2]
      exact absurd (h1.trans h2.symm) hne
  | trans h1 h2 ih1 ih2 =>
      have hnd2 : _ := ((h1.map Prod.fst).nodup_iff).mp hnd
      rw [ih1 hnd, ih2 hnd2]

theorem cloneEntries_keys (c : Cloner) :
    ∀ (keys : List String) (any : JSValue) (vt : AType) (path : List Step)
      (ebs : List (String × Builder)),
      Cloner.cloneEntries c any keys vt path = .ok ebs → ebs.map Prod.fst = keys := by
  intro keys
  induction keys with
  | nil =>
      intro any vt path ebs h
      simp only [Cloner.cloneEntries] at h
      cases h
      rfl
  | cons k rest ih =>
      intro any vt path ebs h
      simp only [Cloner.cloneEntries, orRaise_ok] at h
      obtain ⟨b, hb, h2⟩ := h
      obtain ⟨bs, hbs, h3⟩ := h2
      cases h3
      simp [ih any vt path bs hbs]

theorem cloneEntries_congr (c : Cloner) (a a2 : JSValue)
    (hg : ∀ k, jsGet a k = jsGet a2 k) :
    ∀ (keys : List String) (vt : AType) (path : List Step),
      Cloner.cloneEntries c a keys vt path = Cloner.cloneEntries c a2 keys vt path := by
  intro keys
  induction keys with
  | nil => intro vt path; simp only [Cloner.cloneEntries]
  | cons k rest ih =>
      intro vt path
      simp only [Cloner.cloneEntries]
      rw [hg k, ih vt path]



/-- Claim C6: the map transcoder iterates keys in ascending
lexicographic order regardless of input iteration order: the result is
invariant under permutation of the input object entries (so accumulated
errors and output are deterministic), an error-free output object lists
its keys as the sorted input keys, and encoding the map with keys b, a
produces output keyed a then b. -/
theorem map_keys_sorted_deterministic :
    (∀ (c : Cloner) (vt : AType) (kvs kvs2 : List (String × JSValue)) (path : List Step),
      kvs.Perm kvs2 → (kvs.map Prod.fst).Nodup →
      Cloner.clone c (.vobj kvs) (.tmap vt) path = Cloner.clone c (.vobj kvs2) (.tmap vt) path) ∧
    (∀ (c : Cloner) (vt : AType) (kvs : List (String × JSValue)) (path : List Step) (b : Builder),
      Cloner.clone c (.vobj kvs) (.tmap vt) path = .ok b → b.errors = [] →
      ∃ ps, b.value = .vobj ps ∧ ps.map Prod.fst = sortStrings (kvs.map Prod.fst) ∧
        List.Sorted strLeProp (ps.map Prod.fst)) ∧
    (toJSON (.vobj [("b", .vnum 1), ("a", .vnum 2)]) (.tmap .tint) ⟨false, false⟩ =
      .ok (.vobj [("a", .vnum 2), ("b", .vnum 1)])) := by
  refine ⟨?_, ?_, ?_⟩
  · intro c vt kvs kvs2 path hperm hnd
    rw [Cloner.clone.eq_def, Cloner.clone.eq_def]
    simp only [jsTruthy, jsTypeof, Bool.not_true, bne_self_eq_false, Bool.or_self,
      Bool.false_eq_true, if_false, reduceIte, jsKeys]
    rw [sortStrings_eq_of_perm (kvs.map Prod.fst) (kvs2.map Prod.fst) (hperm.map Prod.fst)]
    rw [cloneEntries_congr c (.vobj kvs) (.vobj kvs2)
      (fun k => by simp [jsGet, lookupFirst_perm hperm hnd k])]
  · intro c vt kvs path b hcl herr
    rw [Cloner.clone.eq_def] at hcl
    simp only [jsTruthy, jsTypeof, Bool.not_true, bne_self_eq_false, Bool.or_self,
      Bool.false_eq_true, if_false, reduceIte, jsKeys, orRaise_ok, Except.ok.injEq] at hcl
    obtain ⟨ebs, hebs, hb⟩ := hcl
    rw [← hb] at herr ⊢
    simp only [Builder.errors, Builder.value] at herr ⊢
    rw [herr]
    have hkeys : ebs.map Prod.fst = sortStrings (kvs.map Prod.fst) :=
      cloneEntries_keys c _ _ _ _ _ hebs
    refine ⟨ebs.map (fun kb => (kb.1, kb.2.value)), by simp, ?_, ?_⟩
    · rw [show (ebs.map (fun kb => (kb.1, kb.2.value))).map Prod.fst = ebs.map Prod.fst from by
        simp [List.map_map]]
      exact hkeys
    · rw [show (ebs.map (fun kb => (kb.1, kb.2.value))).map Prod.fst = ebs.map Prod.fst from by
        simp [List.map_map]]
      rw [hkeys]
      exact sortStrings_sorted _
  · rw [toJSON, cloneRoot]
    simp [mkCloner, Cloner.clone, Cloner.cloneEntries, isValid, Builder.build,
      jsKeys, jsGet, sortStrings, strLeProp, strLe, listCharLe, jsTruthy, jsTypeof,
      lookupFirst, orRaise]

/-- Witness for claim C6 at concrete inputs: the two entry orders of
the same map transcode identically and the output keys are sorted. -/
theorem map_keys_sorted_deterministic_witness :
    Cloner.clone ⟨.TO_JSON, false, false⟩ (.vobj [("b", .vnum 1), ("a", .vnum 2)])
        (.tmap .tint) [] =
      Cloner.clone ⟨.TO_JSON, false, false⟩ (.vobj [("a", .vnum 2), ("b", .vnum 1)])
        (.tmap .tint) [] ∧
    ∃ ps, (JSValue.vobj [("a", .vnum 2), ("b", .vnum 1)]) = .vobj ps ∧
      ps.map Prod.fst = sortStrings ["b", "a"] ∧ List.Sorted strLeProp (ps.map Prod.fst) := by
  constructor
  · exact map_keys_sorted_deterministic.1 ⟨.TO_JSON, false, false⟩ .tint
      [("b", .vnum 1), ("a", .vnum 2)] [("a", .vnum 2), ("b", .vnum 1)] []
      (List.Perm.swap _ _ _) (by simp)
  · have h := map_keys_sorted_deterministic.2.1 ⟨.TO_JSON, false, false⟩ .tint
      [("b", .vnum 1), ("a", .vnum 2)] [] ⟨.vobj [("a", .vnum 2), ("b", .vnum 1)], []⟩
      (by rw [Cloner.clone.eq_def]
          simp [jsTruthy, jsTypeof, jsKeys, jsGet, sortStrings, strLeProp, strLe,
            listCharLe, lookupFirst, Cloner.cloneEntries, Cloner.clone, isValid, orRaise])
      rfl
    simpa using h

/-- Claim C5: constructing a transcoder with omitDefaultValues equal to
true under a decode mode (decodeFromJSON or decodeFromDefaultJSON)
raises the configuration error immediately, before and independent of
any value processing, while under encodeToJSON no configuration error
is ever raised. -/
theorem omit_default_values_requires_toJSON :
    ∀ (any : JSValue) (t : AType) (au : Bool),
      fromJSON any t ⟨au, true⟩ = .error (.configError "invalid cloner options") ∧
      fromDefaultJSON any t ⟨au, true⟩ = .error (.configError "invalid cloner options") ∧
      ∀ (opts : Opts) (msg : String), toJSON any t opts ≠ .error (.configError msg) := by
  intro any t au
  refine ⟨rfl, rfl, ?_⟩
  intro opts msg
  unfold toJSON cloneRoot mkCloner
  simp only [bne_self_eq_false, Bool.and_false, Bool.false_eq_true, if_false]
  cases h : Cloner.clone ⟨.TO_JSON, opts.allowUndeclaredFields, opts.omitDefaultValues⟩ any t [] with
  | error e => simp
  | ok b => cases hb : b.build t <;> simp [hb]

/-- Claim C2 (code-bug exhibit): under decode modes an invalid buffer
value accumulates the invalid-value error and surfaces as the
aggregated incompatible-value failure, but under encodeToJSON the same
invalidity crashes the traversal with an uncaught TypeError (the code
calls toString on the undefined accumulator value) instead of raising
the aggregated failure. -/
theorem invalid_buffer_toJSON_crashes :
    fromJSON (.vstr "abc") (.tfixed "F2" 2) ⟨false, false⟩ =
      .error (.incompatible
        ⟨buildMessage [mkError "invalid value" (.vstr "abc") (.tfixed "F2" 2) []] (.tfixed "F2" 2),
         "ERR_AVRO_INCOMPATIBLE_VALUE",
         [mkError "invalid value" (.vstr "abc") (.tfixed "F2" 2) []],
         .tfixed "F2" 2⟩) ∧
    toJSON (.vnum 5) .tbytes ⟨false, false⟩ =
      .error (.typeError "TypeError: Cannot read properties of undefined (reading 'toString')") := by
  constructor
  · simp [fromJSON, cloneRoot, mkCloner, Cloner.clone, isValid, strToBytes,
      Builder.build, Builder.empty, Builder.addError]
  · simp [toJSON, cloneRoot, mkCloner, Cloner.clone, isValid]

/-- Claim C7: for every union type, mode and configuration, transcoding
the literal null input succeeds with value null exactly when one of the
union branches has type name null (equivalently, is the null type), and
otherwise accumulates the single is-null error; no branch recursion
contributes anything either way. -/
theorem union_null_input :
    (∀ (c : Cloner) (w : Bool) (bs : List AType) (path : List Step),
      Cloner.clone c .vnull (.tunion w bs) path =
        .ok (if bs.any (fun b => typeName b == "null") then ⟨.vnull, []⟩
             else ⟨.vundef, [mkError "is null" .vnull (.tunion w bs) path]⟩)) ∧
    (∀ b : AType, (typeName b == "null") = true ↔ b = .tnull) := by
  constructor
  · intro c w bs path
    by_cases h : bs.any (fun b => typeName b == "null") = true
    · simp [Cloner.clone, h]
    · simp [Cloner.clone, h, Builder.empty, Builder.addError]
  · intro b
    cases b with
    | trec nm isErr fields => cases isErr <;> simp [typeName]
    | tunion w bs => cases w <;> simp [typeName]
    | tlogical nm toV fromV u =>
        simp only [typeName, beq_iff_eq]
        constructor
        · intro h
          exfalso
          have hl := congrArg String.length h
          rw [String.length_append] at hl
          have h8 : "logical:".length = 8 := rfl
          have h4 : "null".length = 4 := rfl
          omega
        · intro h
          cases h
    | _ => simp [typeName]

/-- Claim C8: in FromDefaultJSON mode, a non-null input against a union
is always matched against the first declared branch: when that branch
is the null type the single does-not-match-first error is accumulated
and no value is produced, and otherwise the input is transcoded under
the first branch (wrapped back for a wrapped union), regardless of
which other branch might match the content. -/
theorem fromDefaultJSON_union_uses_first_branch :
    (∀ (c : Cloner) (w : Bool) (b0 : AType) (rest : List AType) (path : List Step) (any : JSValue),
      c.mode = .FROM_DEFAULT_JSON → any ≠ .vnull → typeName b0 = "null" →
      Cloner.clone c any (.tunion w (b0 :: rest)) path =
        .ok ⟨.vundef, [mkError "does not match first (null)" any (.tunion w (b0 :: rest)) path]⟩) ∧
    (∀ (c : Cloner) (w : Bool) (b0 : AType) (rest : List AType) (path : List Step)
       (any : JSValue) (bb : Builder),
      c.mode = .FROM_DEFAULT_JSON → any ≠ .vnull → typeName b0 ≠ "null" →
      Cloner.clone c any b0 (path ++ [.fld (branchName b0)]) = .ok bb →
      Cloner.clone c any (.tunion w (b0 :: rest)) path =
        .ok ⟨if bb.errors.isEmpty then (if !w then bb.value else wrapBranch b0 bb.value)
             else .vundef, bb.errors⟩) := by
  constructor
  · intro c w b0 rest path any hmode hnn h0
    obtain ⟨mode, au, om⟩ := c
    simp only [Cloner.mode] at hmode
    subst hmode
    cases any
    case vnull => exact absurd rfl hnn
    all_goals (rw [Cloner.clone.eq_def]; simp [h0, orRaise, Builder.empty, Builder.addError])
  · intro c w b0 rest path any bb hmode hnn h0 hcb
    obtain ⟨mode, au, om⟩ := c
    simp only [Cloner.mode] at hmode
    subst hmode
    cases any
    case vnull => exact absurd rfl hnn
    all_goals (
      rw [Cloner.clone.eq_def]
      simp [h0, orRaise, wrapBranch, jsTypeof, jsKeys, jsGet, lookupFirst, Cloner.cloneBranch, hcb])

/-- Witness for claim C8 at concrete inputs: a default decoded against
a union whose first branch is null fails with the dedicated error, and
against a union of string then int it is decoded under the string
branch positionally. -/
theorem fromDefaultJSON_union_uses_first_branch_witness :
    Cloner.clone ⟨.FROM_DEFAULT_JSON, false, false⟩ (.vstr "x")
        (.tunion false (AType.tnull :: [AType.tstr])) [] =
      .ok ⟨.vundef, [mkError "does not match first (null)" (.vstr "x")
        (.tunion false (AType.tnull :: [AType.tstr])) []]⟩ ∧
    Cloner.clone ⟨.FROM_DEFAULT_JSON, false, false⟩ (.vstr "x")
        (.tunion false (AType.tstr :: [AType.tint])) [] =
      .ok ⟨.vstr "x", []⟩ := by
  constructor
  · exact fromDefaultJSON_union_uses_first_branch.1 ⟨.FROM_DEFAULT_JSON, false, false⟩
      false .tnull [.tstr] [] (.vstr "x") rfl (by simp) rfl
  · have h := fromDefaultJSON_union_uses_first_branch.2 ⟨.FROM_DEFAULT_JSON, false, false⟩
      false .tstr [.tint] [] (.vstr "x") ⟨.vstr "x", []⟩ rfl (by simp)
      (by simp [typeName]) (by rw [Cloner.clone.eq_def]; simp [isValid])
    simpa using h


/-- Association lookup over an index-keyed list is positional lookup. -/
theorem lookupFirst_map_natKey (f : Nat → JSValue) (k : String) :
    ∀ (l : List Nat),
      lookupFirst (l.map (fun i => (natKey i, f i))) k =
        (l.find? (fun i => natKey i = k)).map f := by
  intro l
  induction l with
  | nil => rfl
  | cons i rest ih =>
      simp only [List.map_cons, lookupFirst]
      by_cases h : natKey i = k
      · rw [List.find?_cons_of_pos _ (by simpa using h)]
        simp [h]
      · rw [List.find?_cons_of_neg _ (by simpa using h)]
        simp [h, ih]

/-- Property reads agree between an array and its index-keyed object. -/
theorem jsGet_varr_eq_indexPairs (xs : List JSValue) (k : String) :
    jsGet (.varr xs) k = jsGet (.vobj (indexPairs xs)) k := by
  simp only [jsGet, indexPairs, lookupFirst_map_natKey]
  cases h : (List.range xs.length).find? (fun i => natKey i = k) <;> simp [h]

/-- Object.keys agrees between an array and its index-keyed object. -/
theorem jsKeys_indexPairs (xs : List JSValue) :
    jsKeys (.vobj (indexPairs xs)) = jsKeys (.varr xs) := by
  simp [jsKeys, indexPairs, List.map_map, Function.comp]

/-- Errors of the array loop carry paths extending the call path. -/
theorem cloneItems_errorPaths (c : Cloner) (itemsType : AType)
    (H : ∀ (x : JSValue) (p : List Step) (b : Builder),
      Cloner.clone c x itemsType p = .ok b →
      ∀ e ∈ b.errors, p.length ≤ e.path.length) :
    ∀ (xs : List JSValue) (path : List Step) (i : Nat) (bs : List Builder),
      Cloner.cloneItems c xs itemsType path i = .ok bs →
      ∀ e ∈ (bs.map Builder.errors).flatten, path.length + 1 ≤ e.path.length := by
  intro xs
  induction xs with
  | nil =>
      intro path i bs h e he
      rw [Cloner.cloneItems.eq_def] at h
      simp only [Except.ok.injEq] at h
      rw [← h] at he
      simp at he
  | cons x rest ih =>
      intro path i bs h e he
      rw [Cloner.cloneItems.eq_def] at h
      simp only [orRaise_ok, Except.ok.injEq] at h
      obtain ⟨b, hb, bs2, hbs2, hbs⟩ := h
      rw [← hbs] at he
      simp only [List.map_cons, List.flatten_cons, List.mem_append] at he
      rcases he with he | he
      · have hle := H x (path ++ [.idx i]) b hb e he
        simpa using hle
      · exact ih path (i + 1) bs2 hbs2 e he

/-- Errors of the map loop carry paths extending the call path. -/
theorem cloneEntries_errorPaths (c : Cloner) (valuesType : AType) (any : JSValue)
    (H : ∀ (x : JSValue) (p : List Step) (b : Builder),
      Cloner.clone c x valuesType p = .ok b →
      ∀ e ∈ b.errors, p.length ≤ e.path.length) :
    ∀ (keys : List String) (path : List Step) (ebs : List (String × Builder)),
      Cloner.cloneEntries c any keys valuesType path = .ok ebs →
      ∀ e ∈ (ebs.map (fun kb => kb.2.errors)).flatten, path.length + 1 ≤ e.path.length := by
  intro keys
  induction keys with
  | nil =>
      intro path ebs h e he
      rw [Cloner.cloneEntries.eq_def] at h
      simp only [Except.ok.injEq] at h
      rw [← h] at he
      simp at he
  | cons k rest ih =>
      intro path ebs h e he
      rw [Cloner.cloneEntries.eq_def] at h
      simp only [orRaise_ok, Except.ok.injEq] at h
      obtain ⟨b, hb, bs2, hbs2, hbs⟩ := h
      rw [← hbs] at he
      simp only [List.map_cons, List.flatten_cons, List.mem_append] at he
      rcases he with he | he
      · have hle := H (jsGet any k) (path ++ [.fld k]) b hb e he
        simpa using hle
      · exact ih path bs2 hbs2 e he

/-- Errors of the field loop carry paths extending the call path. -/
theorem cloneFields_errorPaths (c : Cloner) (any : JSValue) :
    ∀ (fs : List (String × AType × Option JSValue)),
      (∀ f ∈ fs, ∀ (x : JSValue) (p : List Step) (b : Builder),
        Cloner.clone c x f.2.1 p = .ok b → ∀ e ∈ b.errors, p.length ≤ e.path.length) →
      ∀ (path : List Step) (outs : List FieldOut),
        Cloner.cloneFields c any fs path = .ok outs →
        ∀ e ∈ (outs.map FieldOut.errors).flatten, path.length + 1 ≤ e.path.length := by
  intro fs
  induction fs with
  | nil =>
      intro H path outs h e he
      rw [cloneFields_nil] at h
      simp only [Except.ok.injEq] at h
      rw [← h] at he
      simp at he
  | cons f rest ih =>
      intro H path outs h e he
      obtain ⟨n, fty, dflt⟩ := f
      rw [cloneFields_cons] at h
      simp only [orRaise_ok, Except.ok.injEq] at h
      obtain ⟨out, hout, outs2, houts2, houts⟩ := h
      rw [← houts] at he
      simp only [List.map_cons, List.flatten_cons, List.mem_append] at he
      rcases he with he | he
      · -- error from the head field's FieldOut
        split at hout
        · -- absent field
          split at hout
          · simp only [Except.ok.injEq] at hout
            rw [← hout] at he
            simp at he
          · split at hout
            · simp only [orRaise_ok, Except.ok.injEq] at hout
              obtain ⟨b, hb, hout2⟩ := hout
              rw [← hout2] at he
              simp at he
            · simp only [Except.ok.injEq] at hout
              rw [← hout] at he
              simp at he
        · -- present field
          simp only [orRaise_ok, Except.ok.injEq] at hout
          obtain ⟨b, hb, hout2⟩ := hout
          rw [← hout2] at he
          simp only at he
          have hle := H (n, fty, dflt) (by simp) (jsGet any n) (path ++ [.fld n]) b hb e he
          simpa using hle
      · exact ih (fun f hf => H f (by simp [hf])) path outs2 houts2 e he

/-- Errors of a union branch carry paths extending the call path. -/
theorem cloneBranch_errorPaths (c : Cloner) (wrapped : Bool) :
    ∀ (bs : List AType),
      (∀ b2 ∈ bs, ∀ (x : JSValue) (p : List Step) (bb : Builder),
        Cloner.clone c x b2 p = .ok bb → ∀ e ∈ bb.errors, p.length ≤ e.path.length) →
      ∀ (key : String) (inner : JSValue) (path : List Step) (bldr : Builder),
        Cloner.cloneBranch c wrapped bs key inner path = .ok (some bldr) →
        ∀ e ∈ bldr.errors, path.length + 1 ≤ e.path.length := by
  intro bs
  induction bs with
  | nil =>
      intro H key inner path bldr h e he
      rw [Cloner.cloneBranch.eq_def] at h
      simp at h
  | cons b rest ih =>
      intro H key inner path bldr h e he
      rw [Cloner.cloneBranch.eq_def] at h
      by_cases hb : (branchName b == key) = true
      · simp only [hb, if_true, orRaise_ok, Except.ok.injEq, Option.some.injEq] at h
        obtain ⟨bb, hbb, hbldr⟩ := h
        rw [← hbldr] at he
        simp only [Builder.errors] at he
        have hle := H b (by simp) inner (path ++ [.fld key]) bb hbb e he
        simpa using hle
      · simp only [hb, Bool.false_eq_true, if_false] at h
        exact ih (fun b2 hb2 => H b2 (by simp [hb2])) key inner path bldr h e he

set_option maxHeartbeats 2000000 in
/-- Every accumulated error's path extends the path of the call that
produced the accumulator: errors are located at or below the call. -/
theorem clone_errorPaths :
    ∀ (N : Nat) (t : AType), sizeOf t ≤ N →
      ∀ (c : Cloner) (any : JSValue) (path : List Step) (b : Builder),
        Cloner.clone c any t path = .ok b →
        ∀ e ∈ b.errors, path.length ≤ e.path.length := by
  intro N
  induction N with
  | zero =>
      intro t ht
      exfalso
      cases t <;> simp at ht
  | succ n ih =>
      intro t ht c any path b hcl e he
      cases t with
      | tarr itemsType =>
          have hIT : sizeOf itemsType ≤ n := by
            have := AType.tarr.sizeOf_spec itemsType
            omega
          rw [Cloner.clone.eq_def] at hcl
          cases any <;> simp only [orRaise_ok, Except.ok.injEq] at hcl
          case varr xs =>
            obtain ⟨bs, hbs, hb⟩ := hcl
            rw [← hb] at he
            simp only [Builder.errors] at he
            have hle := cloneItems_errorPaths c itemsType
              (fun x p bb hbb => ih itemsType hIT c x p bb hbb) xs path 0 bs hbs e he
            omega
          all_goals
            (rw [← hcl] at he
             simp only [Builder.empty, Builder.addError, Builder.errors, List.nil_append,
               List.mem_singleton] at he
             rw [he]
             simp [mkError])
      | tmap valuesType =>
          have hVT : sizeOf valuesType ≤ n := by
            have := AType.tmap.sizeOf_spec valuesType
            omega
          rw [Cloner.clone.eq_def] at hcl
          simp only [] at hcl
          split at hcl
          · simp only [Except.ok.injEq] at hcl
            rw [← hcl] at he
            simp only [Builder.empty, Builder.addError, Builder.errors, List.nil_append,
              List.mem_singleton] at he
            rw [he]
            simp [mkError]
          · simp only [orRaise_ok, Except.ok.injEq] at hcl
            obtain ⟨ebs, hebs, hb⟩ := hcl
            rw [← hb] at he
            simp only [Builder.errors] at he
            have hle := cloneEntries_errorPaths c valuesType any
              (fun x p bb hbb => ih valuesType hVT c x p bb hbb) _ path ebs hebs e he
            omega
      | trec nm isErr fields =>
          have hF : ∀ f ∈ fields, sizeOf (f.2.1) ≤ n := by
            intro f hfm
            have h1 := List.sizeOf_lt_of_mem hfm
            have h2 := AType.trec.sizeOf_spec nm isErr fields
            obtain ⟨n1, fty, dflt⟩ := f
            simp only [Prod.mk.sizeOf_spec] at h1
            simp only
            omega
          rw [Cloner.clone.eq_def] at hcl
          simp only [] at hcl
          split at hcl
          · simp only [Except.ok.injEq] at hcl
            rw [← hcl] at he
            simp only [Builder.empty, Builder.addError, Builder.errors, List.nil_append,
              List.mem_singleton] at he
            rw [he]
            simp [mkError]
          · simp only [orRaise_ok, Except.ok.injEq] at hcl
            obtain ⟨outs, houts, hb⟩ := hcl
            rw [← hb] at he
            simp only [Builder.errors, List.mem_append] at he
            rcases he with (he | he) | he
            · -- undeclared-fields error, at the call's own path
              split at he
              · simp at he
              · split at he
                · simp at he
                · simp only [List.mem_singleton] at he
                  rw [he]
                  simp [mkError]
            · -- field errors, at extended paths
              have hle := cloneFields_errorPaths c any fields
                (fun f hf x p bb hbb => ih f.2.1 (hF f hf) c x p bb hbb) path outs houts e he
              omega
            · -- missing-fields error, at the call's own path
              split at he
              · simp at he
              · simp only [List.mem_singleton] at he
                rw [he]
                simp [mkError]
      | tunion wrapped bs =>
          have hBS : ∀ b2 ∈ bs, sizeOf b2 ≤ n := by
            intro b2 hb2
            have h1 := List.sizeOf_lt_of_mem hb2
            have h2 := AType.tunion.sizeOf_spec wrapped bs
            omega
          rw [Cloner.clone.eq_def] at hcl
          cases any with
          | vnull =>
              simp only [] at hcl
              split at hcl
              · simp only [Except.ok.injEq] at hcl
                rw [← hcl] at he
                simp at he
              · simp only [Except.ok.injEq] at hcl
                rw [← hcl] at he
                simp only [Builder.empty, Builder.addError, Builder.errors, List.nil_append,
                  List.mem_singleton] at he
                rw [he]
                simp [mkError]
          | _ =>
              simp only [orRaise_ok, Except.ok.injEq] at hcl
              obtain ⟨s, hs, hb⟩ := hcl
              cases s with
              | inl bldr =>
                  simp only [Except.ok.injEq] at hb
                  rw [← hb] at he
                  split at hs
                  · -- FROM_DEFAULT_JSON
                    split at hs
                    · simp at hs
                    · split at hs
                      · simp only [Except.ok.injEq, Sum.inl.injEq] at hs
                        rw [← hs] at he
                        simp only [Builder.empty, Builder.addError, Builder.errors,
                          List.nil_append, List.mem_singleton] at he
                        rw [he]
                        simp [mkError]
                      · simp at hs
                  · split at hs
                    · -- TO_JSON unwrapped: branch lookup
                      split at hs
                      · simp only [Except.ok.injEq, Sum.inl.injEq] at hs
                        rw [← hs] at he
                        simp only [Builder.empty, Builder.addError, Builder.errors,
                          List.nil_append, List.mem_singleton] at he
                        rw [he]
                        simp [mkError]
                      · simp at hs
                    · simp at hs
              | inr any2 =>
                  simp only [] at hb
                  split at hb
                  · simp only [Except.ok.injEq] at hb
                    rw [← hb] at he
                    simp only [Builder.empty, Builder.addError, Builder.errors,
                      List.nil_append, List.mem_singleton] at he
                    rw [he]
                    simp [mkError]
                  · split at hb
                    · -- single-key object: branch recursion
                      simp only [orRaise_ok, Except.ok.injEq] at hb
                      obtain ⟨ob, hob, hb2⟩ := hb
                      cases ob with
                      | some bldr =>
                          simp only [Except.ok.injEq] at hb2
                          rw [← hb2] at he
                          have hle := cloneBranch_errorPaths c wrapped bs
                            (fun b2 hb2m x p bb hbb => ih b2 (hBS b2 hb2m) c x p bb hbb)
                            _ _ path bldr hob e he
                          omega
                      | none =>
                          simp only [Except.ok.injEq] at hb2
                          rw [← hb2] at he
                          simp only [Builder.empty, Builder.addError, Builder.errors,
                            List.nil_append, List.mem_singleton] at he
                          rw [he]
                          simp [mkError]
                    · simp only [Except.ok.injEq] at hb
                      rw [← hb] at he
                      simp only [Builder.empty, Builder.addError, Builder.errors,
                        List.nil_append, List.mem_singleton] at he
                      rw [he]
                      simp [mkError]
      | tlogical nm toV fromV u =>
          have hu : sizeOf u ≤ n := by
            have := AType.tlogical.sizeOf_spec nm toV fromV u
            omega
          rw [Cloner.clone.eq_def] at hcl
          simp only [] at hcl
          split at hcl
          · split at hcl
            · simp only [Except.ok.injEq] at hcl
              rw [← hcl] at he
              simp only [Builder.empty, Builder.addError, Builder.errors, List.nil_append,
                List.mem_singleton] at he
              rw [he]
              simp [mkError]
            · split at hcl
              · simp only [Except.ok.injEq] at hcl
                rw [← hcl] at he
                simp only [Builder.empty, Builder.addError, Builder.errors, List.nil_append,
                  List.mem_singleton] at he
                rw [he]
                simp [mkError]
              · exact ih u hu c _ path b hcl e he
          · simp only [orRaise_ok, Except.ok.injEq] at hcl
            obtain ⟨b0, hb0, hb⟩ := hcl
            split at hb
            · split at hb
              · simp only [Except.ok.injEq] at hb
                rw [← hb] at he
                simp only [Builder.errors] at he
                exact ih u hu c any path b0 hb0 e he
              · simp only [Except.ok.injEq] at hb
                rw [← hb] at he
                simp only [Builder.addError, Builder.errors, List.mem_append] at he
                rcases he with he | he
                · exact ih u hu c any path b0 hb0 e he
                · simp only [List.mem_singleton] at he
                  rw [he]
                  simp [mkError]
            · simp only [Except.ok.injEq] at hb
              rw [← hb] at he
              exact ih u hu c any path b0 hb0 e he
      | _ =>
          rw [Cloner.clone.eq_def] at hcl
          simp only [] at hcl
          repeat' split at hcl
          all_goals
            first
            | (simp at hcl
               done)
            | (simp only [Except.ok.injEq] at hcl
               rw [← hcl] at he
               first
               | (simp at he
                  done)
               | (simp only [Builder.empty, Builder.addError, Builder.errors, List.nil_append,
                    List.mem_singleton] at he
                  rw [he]
                  simp [mkError]))
/-- Two errors built at the same value, type and path with different
descriptions have different messages. -/
theorem errMessage_desc_inj (d1 d2 : String) (v : JSValue) (t : AType) (p : List Step)
    (h : errMessage d1 v t p = errMessage d2 v t p) : d1 = d2 := by
  unfold errMessage at h
  have h2 := congrArg String.data h
  simp only [String.data_append] at h2
  have h3 := List.append_cancel_right h2
  have h4 := List.append_cancel_right h3
  have h5 := List.append_cancel_left h4
  exact String.ext h5
/-- The undeclared-fields description never reads as the object-check one. -/
theorem contains_desc_ne (s1 s2 : String) :
    "contains " ++ s1 ++ " undeclared field(s) (" ++ s2 ++ ")" ≠ "is not a valid object" := by
  intro h
  have h2 := congrArg String.data h
  simp only [String.data_append, List.append_assoc] at h2
  have h3 := congrArg (fun l => l[0]?) h2
  simp only at h3
  rw [List.getElem?_append_left (by decide)] at h3
  exact absurd h3 (by decide)

/-- The missing-fields description never reads as the object-check one. -/
theorem missing_desc_ne (s1 s2 : String) :
    "is missing " ++ s1 ++ " field(s) (" ++ s2 ++ ")" ≠ "is not a valid object" := by
  intro h
  have h2 := congrArg String.data h
  simp only [String.data_append, List.append_assoc] at h2
  have h3 := congrArg (fun l => l[3]?) h2
  simp only at h3
  rw [List.getElem?_append_left (by decide)] at h3
  exact absurd h3 (by decide)

/-- A map given null, undefined or a non-object accumulates exactly the
object-check error and nothing else. -/
theorem object_check_tmap_bad (c : Cloner) (vt : AType) (any : JSValue) (path : List Step)
    (hbad : any = .vnull ∨ any = .vundef ∨ jsTypeof any ≠ "object") :
    Cloner.clone c any (.tmap vt) path =
      .ok (Builder.empty.addError "is not a valid object" any (.tmap vt) path) := by
  have hcond : (!(jsTruthy any) || jsTypeof any != "object") = true := by
    rcases hbad with h | h | h
    · subst h; rfl
    · subst h; rfl
    · cases any <;> simp_all [jsTypeof, jsTruthy]
  rw [Cloner.clone.eq_def]
  simp only [hcond, reduceIte, if_true]

/-- A record given null, undefined or a non-object accumulates exactly
the object-check error and nothing else. -/
theorem object_check_trec_bad (c : Cloner) (nm : String) (isErr : Bool)
    (fields : List (String × AType × Option JSValue)) (any : JSValue) (path : List Step)
    (hbad : any = .vnull ∨ any = .vundef ∨ jsTypeof any ≠ "object") :
    Cloner.clone c any (.trec nm isErr fields) path =
      .ok (Builder.empty.addError "is not a valid object" any (.trec nm isErr fields) path) := by
  have hcond : (!(jsTruthy any) || jsTypeof any != "object") = true := by
    rcases hbad with h | h | h
    · subst h; rfl
    · subst h; rfl
    · cases any <;> simp_all [jsTypeof, jsTruthy]
  rw [Cloner.clone.eq_def]
  simp only [hcond, reduceIte, if_true]

/-- A map given a non-null object never accumulates the object-check
error: field errors sit at strictly longer paths, so none can be it. -/
theorem object_check_tmap_good (c : Cloner) (vt : AType) (any : JSValue) (path : List Step)
    (b : Builder) (hobj : jsTypeof any = "object") (hnn : any ≠ .vnull)
    (hcl : Cloner.clone c any (.tmap vt) path = .ok b) :
    mkError "is not a valid object" any (.tmap vt) path ∉ b.errors := by
  intro hmem
  have hcond : (!(jsTruthy any) || jsTypeof any != "object") = false := by
    cases any <;> simp_all [jsTypeof, jsTruthy]
  rw [Cloner.clone.eq_def] at hcl
  simp only [hcond, Bool.false_eq_true, reduceIte, if_false] at hcl
  simp only [orRaise_ok, Except.ok.injEq] at hcl
  obtain ⟨ebs, hebs, hb⟩ := hcl
  rw [← hb] at hmem
  simp only [Builder.errors] at hmem
  have hle := cloneEntries_errorPaths c vt any
    (fun x p bb hbb => clone_errorPaths (sizeOf vt) vt (le_refl _) c x p bb hbb)
    _ path ebs hebs _ hmem
  have hp : (mkError "is not a valid object" any (.tmap vt) path).path = path := rfl
  rw [hp] at hle
  omega

/-- A record given a non-null object never accumulates the object-check
error: same-path record errors carry other messages and field errors
sit at strictly longer paths. -/
theorem object_check_trec_good (c : Cloner) (nm : String) (isErr : Bool)
    (fields : List (String × AType × Option JSValue)) (any : JSValue) (path : List Step)
    (b : Builder) (hobj : jsTypeof any = "object") (hnn : any ≠ .vnull)
    (hcl : Cloner.clone c any (.trec nm isErr fields) path = .ok b) :
    mkError "is not a valid object" any (.trec nm isErr fields) path ∉ b.errors := by
  intro hmem
  have hcond : (!(jsTruthy any) || jsTypeof any != "object") = false := by
    cases any <;> simp_all [jsTypeof, jsTruthy]
  rw [Cloner.clone.eq_def] at hcl
  simp only [hcond, Bool.false_eq_true, reduceIte, if_false] at hcl
  simp only [orRaise_ok, Except.ok.injEq] at hcl
  obtain ⟨outs, houts, hb⟩ := hcl
  rw [← hb] at hmem
  simp only [Builder.errors, List.mem_append] at hmem
  rcases hmem with (hmem | hmem) | hmem
  · -- a same-path undeclared-fields error would need an equal message
    split at hmem
    · simp at hmem
    · split at hmem
      · simp at hmem
      · simp only [List.mem_singleton] at hmem
        have hmsg : errMessage "is not a valid object" any (.trec nm isErr fields) path =
            errMessage ("contains " ++ toString (((jsKeys any).filter
                (fun k => !(fields.any (fun f => f.1 == k)))).length) ++
              " undeclared field(s) (" ++ String.intercalate ", "
                ((jsKeys any).filter (fun k => !(fields.any (fun f => f.1 == k)))) ++ ")")
              any (.trec nm isErr fields) path :=
          congrArg ValueError.message hmem
        have := errMessage_desc_inj _ _ _ _ _ hmsg
        exact contains_desc_ne _ _ this.symm
  · have hF : ∀ f ∈ fields, ∀ (x : JSValue) (p : List Step) (bb : Builder),
        Cloner.clone c x f.2.1 p = .ok bb → ∀ e ∈ bb.errors, p.length ≤ e.path.length := by
      intro f hf x p bb hbb
      exact clone_errorPaths (sizeOf f.2.1) f.2.1 (le_refl _) c x p bb hbb
    have hle := cloneFields_errorPaths c any fields hF path outs houts _ hmem
    have hp : (mkError "is not a valid object" any (.trec nm isErr fields) path).path = path := rfl
    rw [hp] at hle
    omega
  · split at hmem
    · simp at hmem
    · simp only [List.mem_singleton] at hmem
      have hmsg : errMessage "is not a valid object" any (.trec nm isErr fields) path =
          errMessage ("is missing " ++ toString (((outs.filter FieldOut.missing).map FieldOut.name).length) ++
            " field(s) (" ++ String.intercalate ","
              ((outs.filter FieldOut.missing).map FieldOut.name) ++ ")")
            any (.trec nm isErr fields) path :=
        congrArg ValueError.message hmem
      have := errMessage_desc_inj _ _ _ _ _ hmsg
      exact missing_desc_ne _ _ this.symm

/-- Against a map type an array input transcodes exactly as the object
keyed by the array's index strings. -/
theorem clone_varr_tmap_as_indexed_object (c : Cloner) (vt : AType) (xs : List JSValue)
    (path : List Step) :
    Cloner.clone c (.varr xs) (.tmap vt) path =
      Cloner.clone c (.vobj (indexPairs xs)) (.tmap vt) path := by
  rw [Cloner.clone.eq_def, Cloner.clone.eq_def]
  simp only [jsTruthy, jsTypeof, Bool.not_true, String.reduceBNe, Bool.or_self,
    Bool.false_eq_true, reduceIte, if_false, Bool.or_false, Bool.false_or]
  rw [jsKeys_indexPairs]
  rw [cloneEntries_congr c (.varr xs) (.vobj (indexPairs xs)) (jsGet_varr_eq_indexPairs xs)]

/-- Claim C10: for record and map types the is-not-a-valid-object error
is accumulated exactly for inputs that are null, undefined, or of
non-object runtime type (then it is the sole error and processing goes
no further); every value of object runtime type other than null passes
the check and proceeds to per-key or per-field processing, and for a
map an array input is transcoded exactly as the mapping keyed by its
index strings. -/
theorem object_check_characterization :
    (∀ (c : Cloner) (vt : AType) (any : JSValue) (path : List Step),
      any = .vnull ∨ any = .vundef ∨ jsTypeof any ≠ "object" →
      Cloner.clone c any (.tmap vt) path =
        .ok (Builder.empty.addError "is not a valid object" any (.tmap vt) path)) ∧
    (∀ (c : Cloner) (nm : String) (isErr : Bool)
      (fields : List (String × AType × Option JSValue)) (any : JSValue) (path : List Step),
      any = .vnull ∨ any = .vundef ∨ jsTypeof any ≠ "object" →
      Cloner.clone c any (.trec nm isErr fields) path =
        .ok (Builder.empty.addError "is not a valid object" any (.trec nm isErr fields) path)) ∧
    (∀ (c : Cloner) (vt : AType) (any : JSValue) (path : List Step) (b : Builder),
      jsTypeof any = "object" → any ≠ .vnull →
      Cloner.clone c any (.tmap vt) path = .ok b →
      mkError "is not a valid object" any (.tmap vt) path ∉ b.errors) ∧
    (∀ (c : Cloner) (nm : String) (isErr : Bool)
      (fields : List (String × AType × Option JSValue)) (any : JSValue) (path : List Step)
      (b : Builder),
      jsTypeof any = "object" → any ≠ .vnull →
      Cloner.clone c any (.trec nm isErr fields) path = .ok b →
      mkError "is not a valid object" any (.trec nm isErr fields) path ∉ b.errors) ∧
    (∀ (c : Cloner) (vt : AType) (xs : List JSValue) (path : List Step),
      Cloner.clone c (.varr xs) (.tmap vt) path =
        Cloner.clone c (.vobj (indexPairs xs)) (.tmap vt) path) :=
  ⟨object_check_tmap_bad, object_check_trec_bad, object_check_tmap_good,
   object_check_trec_good, clone_varr_tmap_as_indexed_object⟩

/-- Witness for claim C10: null against a map of ints yields exactly the
object-check error, and the empty object's error-free result does not
contain it. -/
theorem object_check_characterization_witness :
    Cloner.clone ⟨.FROM_JSON, false, false⟩ .vnull (.tmap .tint) [] =
      .ok (Builder.empty.addError "is not a valid object" .vnull (.tmap .tint) []) ∧
    mkError "is not a valid object" (.vobj []) (.tmap .tint) [] ∉
      (Builder.mk (.vobj []) []).errors := by
  constructor
  · exact object_check_characterization.1 ⟨.FROM_JSON, false, false⟩ .tint .vnull []
      (Or.inl rfl)
  · exact object_check_characterization.2.2.1 ⟨.FROM_JSON, false, false⟩ .tint
      (.vobj []) [] ⟨.vobj [], []⟩ rfl (fun h => JSValue.noConfusion h)
      (by rw [Cloner.clone.eq_def]
          simp [jsTruthy, jsTypeof, jsKeys, sortStrings, Cloner.cloneEntries, orRaise])


/-- Concrete traversal of the two-problem example: one invalid array
element under field b, one missing field a. -/
theorem c4_clone_concrete :
    Cloner.clone ⟨.FROM_JSON, false, false⟩ (.vobj [("b", .varr [.vstr "x"])])
        (.trec "R" false [("a", .tint, none), ("b", .tarr .tint, none)]) [] =
      .ok ⟨.vundef,
        [mkError "invalid value" (.vstr "x") .tint [.fld "b", .idx 0],
         mkError "is missing 1 field(s) (a)" (.vobj [("b", .varr [.vstr "x"])])
           (.trec "R" false [("a", .tint, none), ("b", .tarr .tint, none)]) []]⟩ := by
  rw [Cloner.clone.eq_def]
  simp [jsTruthy, jsTypeof, jsKeys, jsGet, lookupFirst, isUndef, Cloner.cloneFields,
    Cloner.clone, Cloner.cloneItems, isValid, orRaise, Builder.empty, Builder.addError,
    mkError, errMessage, jsonRecordValue, recordNew]
  rfl

/-- Claim C4: whenever the traversal accumulates a non-empty error list,
the entry point raises one failure tagged ERR_AVRO_INCOMPATIBLE_VALUE
whose message states the error count and lists every accumulated error
message, and which carries the full structured error list and the root
type; the record example with one missing field and one invalid nested
array element yields exactly two embedded errors with distinct,
correctly nested paths. -/
theorem aggregate_error_reporting :
    (∀ (mode : Mode) (any : JSValue) (t : AType) (opts : Opts) (c : Cloner) (b : Builder),
      mkCloner mode opts = .ok c →
      Cloner.clone c any t [] = .ok b →
      b.errors ≠ [] →
      cloneRoot mode any t opts = .error (.incompatible
        ⟨toString b.errors.length ++ " error(s) when expecting " ++ typeInfo t ++ ":\n" ++
           String.intercalate "\n" (b.errors.map (fun e => "\t" ++ e.message)),
         "ERR_AVRO_INCOMPATIBLE_VALUE", b.errors, t⟩)) ∧
    (∃ iv : IncompatibleError,
      fromJSON (.vobj [("b", .varr [.vstr "x"])])
          (.trec "R" false [("a", .tint, none), ("b", .tarr .tint, none)]) ⟨false, false⟩ =
        .error (.incompatible iv) ∧
      iv.rootType = .trec "R" false [("a", .tint, none), ("b", .tarr .tint, none)] ∧
      iv.code = "ERR_AVRO_INCOMPATIBLE_VALUE" ∧
      iv.errors.length = 2 ∧
      iv.errors.map ValueError.path = [[.fld "b", .idx 0], []] ∧
      (iv.errors.map ValueError.path).Nodup) := by
  constructor
  · intro mode any t opts c b hmk hcl herr
    simp only [cloneRoot, hmk, hcl]
    obtain ⟨e, rest, hbe⟩ : ∃ e rest, b.errors = e :: rest := by
      cases hbe : b.errors with
      | nil => exact absurd hbe herr
      | cons e rest => exact ⟨e, rest, rfl⟩
    rw [hbe]
    simp only [Builder.build, hbe, buildMessage]
  · refine ⟨⟨buildMessage
        [mkError "invalid value" (.vstr "x") .tint [.fld "b", .idx 0],
         mkError "is missing 1 field(s) (a)" (.vobj [("b", .varr [.vstr "x"])])
           (.trec "R" false [("a", .tint, none), ("b", .tarr .tint, none)]) []]
        (.trec "R" false [("a", .tint, none), ("b", .tarr .tint, none)]),
      "ERR_AVRO_INCOMPATIBLE_VALUE",
      [mkError "invalid value" (.vstr "x") .tint [.fld "b", .idx 0],
       mkError "is missing 1 field(s) (a)" (.vobj [("b", .varr [.vstr "x"])])
         (.trec "R" false [("a", .tint, none), ("b", .tarr .tint, none)]) []],
      .trec "R" false [("a", .tint, none), ("b", .tarr .tint, none)]⟩,
      ?_, rfl, rfl, rfl, by simp [mkError], by simp [mkError]⟩
    simp only [fromJSON, cloneRoot, mkCloner, Bool.false_and, Bool.false_eq_true,
      if_false, reduceIte]
    rw [c4_clone_concrete]
    simp [Builder.build, buildMessage]

/-- Witness for claim C4: an invalid int at the root raises the
aggregated single-error failure. -/
theorem aggregate_error_reporting_witness :
    cloneRoot .FROM_JSON .vnull .tint ⟨false, false⟩ = .error (.incompatible
      ⟨toString ([mkError "invalid value" .vnull .tint []]).length ++
         " error(s) when expecting " ++ typeInfo .tint ++ ":\n" ++
         String.intercalate "\n"
           (([mkError "invalid value" .vnull .tint []]).map (fun e => "\t" ++ e.message)),
       "ERR_AVRO_INCOMPATIBLE_VALUE", [mkError "invalid value" .vnull .tint []], .tint⟩) := by
  have h := aggregate_error_reporting.1 .FROM_JSON .vnull .tint ⟨false, false⟩
    ⟨.FROM_JSON, false, false⟩ ⟨.vundef, [mkError "invalid value" .vnull .tint []]⟩ rfl
    (by rw [Cloner.clone.eq_def]
        simp [isValid, Builder.empty, Builder.addError])
    (by simp)
  exact h


/-- Binary-encoding a byte list to a string and reading it back is the
identity on actual bytes. -/
theorem strToBytes_bytesToStr (bs : List Nat) (h : ∀ b ∈ bs, b < 256) :
    strToBytes (bytesToStr bs) = bs := by
  simp only [strToBytes, bytesToStr, List.map_map]
  refine Eq.trans (List.map_congr_left ?_) (List.map_id bs)
  intro b hb
  simp only [Function.comp_apply, id_eq]
  have hb2 := h b hb
  have hmod : b % 256 = b := Nat.mod_eq_of_lt hb2
  rw [hmod]
  have hv : Nat.isValidChar b := Or.inl (by omega)
  have h1 : (Char.ofNat b).toNat = b := by
    simp [Char.ofNat, hv]
    rfl
  rw [h1, hmod]

/-- Lookup in a list keyed by its own elements. -/
theorem lookupFirst_self_map (g : String → JSValue) :
    ∀ (keys : List String) (k : String), k ∈ keys →
      lookupFirst (keys.map (fun k2 => (k2, g k2))) k = some (g k) := by
  intro keys
  induction keys with
  | nil => intro k hk; simp at hk
  | cons k2 rest ih =>
      intro k hk
      simp only [List.map_cons, lookupFirst]
      by_cases h : k2 = k
      · subst h; simp
      · simp only [h, if_false]
        rcases List.mem_cons.mp hk with h2 | h2
        · exact absurd h2.symm h
        · exact ih k h2

/-- Element validity from array validity. -/
theorem validItems_mem (it : AType) :
    ∀ (xs : List JSValue), validItems it xs = true → ∀ x ∈ xs, isValidFor it x = true := by
  intro xs
  induction xs with
  | nil => intro _ x hx; simp at hx
  | cons y rest ih =>
      intro h x hx
      rw [validItems.eq_def] at h
      simp only [Bool.and_eq_true] at h
      rcases List.mem_cons.mp hx with h2 | h2
      · rw [h2]; exact h.1
      · exact ih h.2 x h2

/-- Looked-up value validity from map validity. -/
theorem validValues_get (vt : AType) :
    ∀ (kvs : List (String × JSValue)), validValues vt kvs = true →
      ∀ k ∈ kvs.map Prod.fst, isValidFor vt ((lookupFirst kvs k).getD .vundef) = true := by
  intro kvs
  induction kvs with
  | nil => intro _ k hk; simp at hk
  | cons kv rest ih =>
      intro h k hk
      rw [validValues.eq_def] at h
      simp only [Bool.and_eq_true] at h
      obtain ⟨k2, v2⟩ := kv
      simp only [lookupFirst]
      by_cases he : k2 = k
      · simp only [he, if_true, reduceIte, Option.getD_some]
        exact h.1
      · simp only [he, if_false, reduceIte]
        simp only [List.map_cons, List.mem_cons] at hk
        rcases hk with h2 | h2
        · exact absurd h2.symm he
        · exact ih h.2 k h2

/-- Field value validity from record validity. -/
theorem validFields_mem :
    ∀ (fields : List (String × AType × Option JSValue)) (kvs : List (String × JSValue)),
      validFields fields kvs = true →
      ∀ f ∈ fields, isValidFor f.2.1 ((lookupFirst kvs f.1).getD .vundef) = true := by
  intro fields
  induction fields with
  | nil => intro _ _ f hf; simp at hf
  | cons f2 rest ih =>
      intro kvs h f hf
      obtain ⟨n, fty, dflt⟩ := f2
      rw [validFields.eq_def] at h
      simp only [Bool.and_eq_true] at h
      rcases List.mem_cons.mp hf with h2 | h2
      · rw [h2]; exact h.1
      · exact ih kvs h.2 f h2

/-- Field type well-formedness from record well-formedness. -/
theorem wfFields_mem :
    ∀ (fields : List (String × AType × Option JSValue)), wfFields fields = true →
      ∀ f ∈ fields, wfType f.2.1 = true := by
  intro fields
  induction fields with
  | nil => intro _ f hf; simp at hf
  | cons f2 rest ih =>
      intro h f hf
      obtain ⟨n, fty, dflt⟩ := f2
      rw [wfFields.eq_def] at h
      simp only [Bool.and_eq_true] at h
      rcases List.mem_cons.mp hf with h2 | h2
      · rw [h2]; exact h.1
      · exact ih h.2 f h2

/-- Field types of a logical-free record are logical-free. -/
theorem noLogicalFields_mem :
    ∀ (fields : List (String × AType × Option JSValue)), noLogicalFields fields = true →
      ∀ f ∈ fields, noLogical f.2.1 = true := by
  intro fields
  induction fields with
  | nil => intro _ f hf; simp at hf
  | cons f2 rest ih =>
      intro h f hf
      obtain ⟨n, fty, dflt⟩ := f2
      rw [noLogicalFields.eq_def] at h
      simp only [Bool.and_eq_true] at h
      rcases List.mem_cons.mp hf with h2 | h2
      · rw [h2]; exact h.1
      · exact ih h.2 f h2

/-- Branch well-formedness from union well-formedness. -/
theorem wfBranches_mem :
    ∀ (bs : List AType), wfBranches bs = true →
      ∀ b ∈ bs, isUnionT b = false ∧ wfType b = true := by
  intro bs
  induction bs with
  | nil => intro _ b hb; simp at hb
  | cons b2 rest ih =>
      intro h b hb
      rw [wfBranches.eq_def] at h
      simp only [Bool.and_eq_true, Bool.not_eq_true'] at h
      rcases List.mem_cons.mp hb with h2 | h2
      · rw [h2]; exact ⟨h.1.1, h.1.2⟩
      · exact ih h.2 b h2

/-- Branches of a logical-free union are logical-free. -/
theorem noLogicalBranches_mem :
    ∀ (bs : List AType), noLogicalBranches bs = true →
      ∀ b ∈ bs, noLogical b = true := by
  intro bs
  induction bs with
  | nil => intro _ b hb; simp at hb
  | cons b2 rest ih =>
      intro h b hb
      rw [noLogicalBranches.eq_def] at h
      simp only [Bool.and_eq_true] at h
      rcases List.mem_cons.mp hb with h2 | h2
      · rw [h2]; exact h.1
      · exact ih h.2 b h2

/-- No type ever occupies the undefined runtime bucket. -/
theorem typeBucket_ne_undefined : ∀ (b : AType), (typeBucket b == "undefined") = false := by
  have key : ∀ (N : Nat) (b : AType), sizeOf b ≤ N → (typeBucket b == "undefined") = false := by
    intro N
    induction N with
    | zero => intro b hb; exfalso; cases b <;> simp at hb
    | succ n ih =>
        intro b hb
        cases b with
        | tlogical nm toV fromV u =>
            have hu : sizeOf u ≤ n := by
              have := AType.tlogical.sizeOf_spec nm toV fromV u
              omega
            simpa [typeBucket] using ih u hu
        | _ => rfl
  exact fun b => key (sizeOf b) b (le_refl _)

/-- undefined resolves to no unwrapped-union branch. -/
theorem validUnwrapped_undef : ∀ (bs : List AType), validUnwrapped bs .vundef = false := by
  intro bs
  induction bs with
  | nil => rw [validUnwrapped.eq_def]
  | cons b rest ih =>
      rw [validUnwrapped.eq_def]
      simp only [jsBucket, typeBucket_ne_undefined b, Bool.false_eq_true, if_false]
      exact ih

/-- A value valid under a logical-free type is never undefined. -/
theorem valid_ne_undef (t : AType) (hnl : noLogical t = true) (v : JSValue)
    (hv : isValidFor t v = true) : v ≠ .vundef := by
  intro hveq
  subst hveq
  cases t with
  | tunion wrapped bs =>
      cases wrapped with
      | true => rw [isValidFor.eq_def] at hv; simp at hv
      | false =>
          rw [isValidFor.eq_def] at hv
          simp only at hv
          rw [validUnwrapped_undef bs] at hv
          simp at hv
  | tlogical nm toV fromV u =>
      rw [noLogical.eq_def] at hnl
      simp at hnl
  | _ => rw [isValidFor.eq_def] at hv <;> simp [isValid] at hv
/-- Elementwise equality gives array comparison. -/
theorem compareEqList_of (it : AType) :
    ∀ (xs ys : List JSValue), List.Forall₂ (fun x y => compareEq it x y = true) xs ys →
      compareEqList it xs ys = true := by
  intro xs ys h
  induction h with
  | nil => rw [compareEqList.eq_def]
  | cons hxy _ ih =>
      rw [compareEqList.eq_def]
      simp only [Bool.and_eq_true]
      exact ⟨hxy, ih⟩

/-- Per-key equality gives map comparison. -/
theorem compareEqKeys_of (vt : AType) (a b : List (String × JSValue)) :
    ∀ (ks : List String),
      (∀ k ∈ ks, compareEq vt ((lookupFirst a k).getD .vundef) ((lookupFirst b k).getD .vundef) = true) →
      compareEqKeys vt ks a b = true := by
  intro ks
  induction ks with
  | nil => intro _; rw [compareEqKeys.eq_def]
  | cons k rest ih =>
      intro h
      rw [compareEqKeys.eq_def]
      simp only [Bool.and_eq_true]
      exact ⟨h k (by simp), ih (fun k2 hk2 => h k2 (by simp [hk2]))⟩

/-- Per-field equality gives record comparison. -/
theorem compareEqFields_of (a b : List (String × JSValue)) :
    ∀ (fields : List (String × AType × Option JSValue)),
      (∀ f ∈ fields,
        compareEq f.2.1 ((lookupFirst a f.1).getD .vundef) ((lookupFirst b f.1).getD .vundef) = true) →
      compareEqFields fields a b = true := by
  intro fields
  induction fields with
  | nil => intro _; rw [compareEqFields.eq_def]
  | cons f rest ih =>
      intro h
      obtain ⟨n, fty, dflt⟩ := f
      rw [compareEqFields.eq_def]
      simp only [Bool.and_eq_true]
      exact ⟨h (n, fty, dflt) (by simp), ih (fun f2 hf2 => h f2 (by simp [hf2]))⟩

/-- Branch equality gives wrapped-union comparison when branch names
are distinct. -/
theorem compareEqWrapped_of (k : String) (x y : JSValue) :
    ∀ (bs : List AType) (b0 : AType), b0 ∈ bs → ((bs.map branchName).Nodup) →
      branchName b0 = k → compareEq b0 x y = true →
      compareEqWrapped bs k x y = true := by
  intro bs
  induction bs with
  | nil => intro b0 hb0; simp at hb0
  | cons b rest ih =>
      intro b0 hb0 hnd hbn hcmp
      rw [compareEqWrapped.eq_def]
      simp only [List.map_cons, List.nodup_cons] at hnd
      rcases List.mem_cons.mp hb0 with h2 | h2
      · subst h2
        simp only [hbn, beq_self_eq_true, if_true, reduceIte]
        exact hcmp
      · have hne : (branchName b == k) = false := by
          have : branchName b0 ∈ rest.map branchName := List.mem_map_of_mem _ h2
          rw [hbn] at this
          simp only [beq_eq_false_iff_ne, ne_eq]
          intro he
          rw [he] at hnd
          exact hnd.1 this
        simp only [hne, Bool.false_eq_true, if_false]
        exact ih b0 h2 hnd.2 hbn hcmp

/-- Branch equality gives unwrapped-union comparison when the two
values share a runtime bucket. -/
theorem compareEqUnwrapped_of (v w : JSValue) (hbw : jsBucket w = jsBucket v) :
    ∀ (bs : List AType) (b0 : AType), branchTypeOf bs v = some b0 →
      compareEq b0 v w = true → compareEqUnwrapped bs v w = true := by
  intro bs
  induction bs with
  | nil => intro b0 hb0; simp [branchTypeOf] at hb0
  | cons b rest ih =>
      intro b0 hb0 hcmp
      rw [compareEqUnwrapped.eq_def]
      simp only [branchTypeOf] at hb0
      by_cases hb : (typeBucket b == jsBucket v) = true
      · have hfc : List.find? (fun b2 => typeBucket b2 == jsBucket v) (b :: rest) = some b :=
          List.find?_cons_of_pos _ hb
        rw [hfc] at hb0
        simp only [Option.some.injEq] at hb0
        subst hb0
        simp only [hb, hbw]
        exact hcmp
      · have hfc : List.find? (fun b2 => typeBucket b2 == jsBucket v) (b :: rest) =
            List.find? (fun b2 => typeBucket b2 == jsBucket v) rest :=
          List.find?_cons_of_neg _ hb
        rw [hfc] at hb0
        have hb2 : (typeBucket b == jsBucket w) = false := by
          rw [hbw]
          simpa using hb
        simp only [hb2, Bool.false_eq_true, if_false]
        simp only [show (typeBucket b == jsBucket v) = false by simpa using hb]
        exact ih b0 hb0 hcmp

/-- A valid wrapped-union value names some branch it is valid under. -/
theorem validWrapped_elim (k : String) (x : JSValue) :
    ∀ (bs : List AType), validWrapped bs k x = true →
      ∃ b0 ∈ bs, branchName b0 = k ∧ isValidFor b0 x = true := by
  intro bs
  induction bs with
  | nil => intro h; rw [validWrapped.eq_def] at h; simp at h
  | cons b rest ih =>
      intro h
      rw [validWrapped.eq_def] at h
      by_cases hb : (branchName b == k) = true
      · simp only [hb, if_true, reduceIte] at h
        exact ⟨b, by simp, by simpa using hb, h⟩
      · simp only [hb, Bool.false_eq_true, if_false] at h
        obtain ⟨b0, hmem, hbn, hval⟩ := ih h
        exact ⟨b0, by simp [hmem], hbn, hval⟩

/-- A valid unwrapped-union value bucket-resolves to a branch it is
valid under. -/
theorem validUnwrapped_elim (v : JSValue) :
    ∀ (bs : List AType), validUnwrapped bs v = true →
      ∃ b0, branchTypeOf bs v = some b0 ∧ isValidFor b0 v = true := by
  intro bs
  induction bs with
  | nil => intro h; rw [validUnwrapped.eq_def] at h; simp at h
  | cons b rest ih =>
      intro h
      rw [validUnwrapped.eq_def] at h
      by_cases hb : (typeBucket b == jsBucket v) = true
      · simp only [hb, if_true, reduceIte] at h
        refine ⟨b, ?_, h⟩
        simp only [branchTypeOf]
        exact List.find?_cons_of_pos _ hb
      · simp only [hb, Bool.false_eq_true, if_false] at h
        obtain ⟨b0, hfind, hval⟩ := ih h
        refine ⟨b0, ?_, hval⟩
        simp only [branchTypeOf] at hfind ⊢
        have hfc : List.find? (fun b2 => typeBucket b2 == jsBucket v) (b :: rest) =
            List.find? (fun b2 => typeBucket b2 == jsBucket v) rest :=
          List.find?_cons_of_neg _ hb
        rw [hfc]
        exact hfind

/-- With distinct branch names the branch scan lands on the named
branch and returns its transcoded value. -/
theorem cloneBranch_found (c : Cloner) (wrapped : Bool) (key : String) (inner val : JSValue)
    (path : List Step) :
    ∀ (bs : List AType) (b0 : AType), b0 ∈ bs → ((bs.map branchName).Nodup) →
      branchName b0 = key →
      Cloner.clone c inner b0 (path ++ [.fld key]) = .ok ⟨val, []⟩ →
      Cloner.cloneBranch c wrapped bs key inner path =
        .ok (some ⟨(if c.mode = .TO_JSON then .vobj [(branchName b0, val)]
                    else if !wrapped then val else wrapBranch b0 val), []⟩) := by
  intro bs
  induction bs with
  | nil => intro b0 hb0; simp at hb0
  | cons b rest ih =>
      intro b0 hb0 hnd hbn hcl
      rw [Cloner.cloneBranch.eq_def]
      simp only [List.map_cons, List.nodup_cons] at hnd
      rcases List.mem_cons.mp hb0 with h2 | h2
      · subst h2
        simp only [hbn, beq_self_eq_true, if_true, reduceIte, hcl, orRaise_pure]
        simp only [Builder.errors, Builder.value, List.isEmpty_nil, if_true, reduceIte]
      · have hne : (branchName b == key) = false := by
          have : branchName b0 ∈ rest.map branchName := List.mem_map_of_mem _ h2
          rw [hbn] at this
          simp only [beq_eq_false_iff_ne, ne_eq]
          intro he
          rw [he] at hnd
          exact hnd.1 this
        simp only [hne, Bool.false_eq_true, if_false]
        exact ih b0 h2 hnd.2 hbn hcl
/-- Sorting a sorted key list changes nothing. -/
theorem sortStrings_idem (l : List String) : sortStrings (sortStrings l) = sortStrings l := by
  unfold sortStrings
  exact List.Sorted.insertionSort_eq (sortStrings_sorted l)

/-- Round trip through the array loops: elementwise round trips give
loop-level round trips. -/
theorem cloneItems_roundTrip (it : AType) :
    ∀ (xs : List JSValue),
      (∀ x ∈ xs, ∀ (p q : List Step),
        ∃ e w, Cloner.clone ⟨.TO_JSON, false, false⟩ x it p = .ok ⟨e, []⟩ ∧ e ≠ .vundef ∧
          Cloner.clone ⟨.FROM_JSON, false, false⟩ e it q = .ok ⟨w, []⟩ ∧ w ≠ .vundef ∧
          jsBucket w = jsBucket x ∧ compareEq it x w = true) →
      ∀ (path : List Step) (i : Nat) (path2 : List Step) (i2 : Nat),
      ∃ es ws,
        Cloner.cloneItems ⟨.TO_JSON, false, false⟩ xs it path i =
          .ok (es.map (fun e => ⟨e, []⟩)) ∧
        Cloner.cloneItems ⟨.FROM_JSON, false, false⟩ es it path2 i2 =
          .ok (ws.map (fun w => ⟨w, []⟩)) ∧
        (∀ e ∈ es, e ≠ .vundef) ∧ (∀ w ∈ ws, w ≠ .vundef) ∧
        compareEqList it xs ws = true := by
  intro xs
  induction xs with
  | nil =>
      intro _ path i path2 i2
      refine ⟨[], [], ?_, ?_, by simp, by simp, by rw [compareEqList.eq_def]⟩
      · rw [Cloner.cloneItems.eq_def]
        simp
      · rw [Cloner.cloneItems.eq_def]
        simp
  | cons x rest ih =>
      intro H path i path2 i2
      obtain ⟨e, w, he, hene, hw, hwne, hbw, hcmp⟩ :=
        H x (by simp) (path ++ [.idx i]) (path2 ++ [.idx i2])
      obtain ⟨es, ws, hes, hws, hesne, hwsne, hcl⟩ :=
        ih (fun x2 hx2 p q => H x2 (by simp [hx2]) p q) path (i + 1) path2 (i2 + 1)
      refine ⟨e :: es, w :: ws, ?_, ?_, ?_, ?_, ?_⟩
      · rw [Cloner.cloneItems.eq_def]
        simp only [he, hes, orRaise_pure, List.map_cons]
      · rw [Cloner.cloneItems.eq_def]
        simp only [hw, hws, orRaise_pure, List.map_cons]
      · intro e2 he2
        rcases List.mem_cons.mp he2 with h2 | h2
        · rw [h2]; exact hene
        · exact hesne e2 h2
      · intro w2 hw2
        rcases List.mem_cons.mp hw2 with h2 | h2
        · rw [h2]; exact hwne
        · exact hwsne w2 h2
      · rw [compareEqList.eq_def]
        simp only [Bool.and_eq_true]
        exact ⟨hcmp, hcl⟩

/-- The map loop on per-key successful clones succeeds with the keyed
results. -/
theorem cloneEntries_fun (c : Cloner) (a : JSValue) (vt : AType) (g : String → JSValue) :
    ∀ (keys : List String) (path : List Step),
      (∀ k ∈ keys, Cloner.clone c (jsGet a k) vt (path ++ [.fld k]) = .ok ⟨g k, []⟩) →
      Cloner.cloneEntries c a keys vt path = .ok (keys.map (fun k => (k, ⟨g k, []⟩))) := by
  intro keys
  induction keys with
  | nil =>
      intro path _
      rw [Cloner.cloneEntries.eq_def]
      simp
  | cons k rest ih =>
      intro path H
      rw [Cloner.cloneEntries.eq_def]
      simp only [H k (by simp), ih path (fun k2 hk2 => H k2 (by simp [hk2])),
        orRaise_pure, List.map_cons]

/-- The field loop on present fields with successful clones succeeds
with the per-field results (omitDefaultValues off). -/
theorem cloneFields_fun (c : Cloner) (a : JSValue) (g : String → JSValue)
    (hom : c.omitDefaultValues = false) :
    ∀ (fields : List (String × AType × Option JSValue)) (path : List Step),
      (∀ f ∈ fields, isUndef (jsGet a f.1) = false) →
      (∀ f ∈ fields, Cloner.clone c (jsGet a f.1) f.2.1 (path ++ [.fld f.1]) = .ok ⟨g f.1, []⟩) →
      Cloner.cloneFields c a fields path =
        .ok (fields.map (fun f => ⟨f.1, false, [], g f.1⟩)) := by
  intro fields
  induction fields with
  | nil => intro path _ _; rw [cloneFields_nil]; rfl
  | cons f rest ih =>
      intro path Hundef H
      obtain ⟨n, fty, dflt⟩ := f
      rw [cloneFields_cons]
      have hu : isUndef (jsGet a n) = false := Hundef (n, fty, dflt) (by simp)
      have hcl : Cloner.clone c (jsGet a n) fty (path ++ [.fld n]) = .ok ⟨g n, []⟩ :=
        H (n, fty, dflt) (by simp)
      simp only [hu, Bool.false_eq_true, if_false, hcl, orRaise_pure]
      simp only [Builder.errors, Builder.value, List.isEmpty_nil, hom, Bool.false_and,
        Bool.false_eq_true, if_false, reduceIte]
      simp only [ih path (fun f2 hf2 => Hundef f2 (by simp [hf2]))
        (fun f2 hf2 => H f2 (by simp [hf2])), orRaise_pure, List.map_cons]

/-- The field-output filter keeps a non-undefined argument. -/
theorem match_arg_some (n : String) (x : JSValue) (hne : x ≠ .vundef) :
    (match x with | .vundef => none | a => some (n, a)) = some (n, x) := by
  cases x
  case vundef => exact absurd rfl hne
  all_goals rfl

/-- The constructor default fill keeps a non-undefined argument. -/
theorem match_dflt_val (x : JSValue) (d : Option JSValue) (hne : x ≠ .vundef) :
    (match x with | .vundef => d.getD .vundef | a => a) = x := by
  cases x
  case vundef => exact absurd rfl hne
  all_goals rfl

/-- The JSON record value of all-present non-undefined outputs lists
every field in schema order. -/
theorem jsonRecordValue_map (g : String → JSValue)
    (fields : List (String × AType × Option JSValue))
    (h : ∀ f ∈ fields, g f.1 ≠ .vundef) :
    jsonRecordValue (fields.map (fun f => ⟨f.1, false, [], g f.1⟩)) =
      .vobj (fields.map (fun f => (f.1, g f.1))) := by
  simp only [jsonRecordValue, JSValue.vobj.injEq]
  induction fields with
  | nil => rfl
  | cons f rest ih =>
      obtain ⟨n, fty, dflt⟩ := f
      have hne : g n ≠ .vundef := h (n, fty, dflt) (by simp)
      have hrest := ih (fun f2 hf2 => h f2 (by simp [hf2]))
      simp only [List.map_cons, List.filterMap_cons, match_arg_some n (g n) hne]
      simp only [List.cons.injEq, true_and]
      exact hrest

/-- The constructed record of non-undefined arguments lists every field
in schema order. -/
theorem recordNew_map (u : String → JSValue)
    (fields : List (String × AType × Option JSValue))
    (h : ∀ f ∈ fields, u f.1 ≠ .vundef) :
    recordNew fields (fields.map (fun f => u f.1)) =
      .vobj (fields.map (fun f => (f.1, u f.1))) := by
  simp only [recordNew, JSValue.vobj.injEq]
  induction fields with
  | nil => rfl
  | cons f rest ih =>
      obtain ⟨n, fty, dflt⟩ := f
      have hne : u n ≠ .vundef := h (n, fty, dflt) (by simp)
      have hrest := ih (fun f2 hf2 => h f2 (by simp [hf2]))
      simp only [List.map_cons, List.zip_cons_cons, List.cons.injEq,
        match_dflt_val (u n) dflt hne]
      exact ⟨trivial, hrest⟩

/-- No undeclared-field error when every input key is declared. -/
theorem undeclared_filter_nil (fields : List (String × AType × Option JSValue)) :
    ∀ (ks : List String), (ks.all (fun k => fields.any (fun f => f.1 == k)) = true) →
      ks.filter (fun k => !(fields.any (fun f => f.1 == k))) = [] := by
  intro ks h
  rw [List.filter_eq_nil_iff]
  intro k hk
  simp only [List.all_eq_true] at h
  simp only [h k hk, Bool.not_true, Bool.false_eq_true, not_false_eq_true]

/-- The schema field names are all declared. -/
theorem names_all_declared (fields : List (String × AType × Option JSValue)) :
    (fields.map Prod.fst).all (fun k => fields.any (fun f => f.1 == k)) = true := by
  rw [List.all_eq_true]
  intro k hk
  rw [List.any_eq_true]
  obtain ⟨f, hf, hfk⟩ := List.mem_map.mp hk
  exact ⟨f, hf, by simp [hfk]⟩
/-- Two fields with the same name are the same field when names are
distinct. -/
theorem nodupFields_eq :
    ∀ (l : List (String × AType × Option JSValue)), ((l.map Prod.fst).Nodup) →
      ∀ x ∈ l, ∀ y ∈ l, x.1 = y.1 → x = y := by
  intro l
  induction l with
  | nil => intro _ x hx; simp at hx
  | cons a rest ih =>
      intro hnd x hx y hy hxy
      simp only [List.map_cons, List.nodup_cons] at hnd
      rcases List.mem_cons.mp hx with h1 | h1 <;> rcases List.mem_cons.mp hy with h2 | h2
      · rw [h1, h2]
      · exfalso
        apply hnd.1
        rw [← h1, hxy]
        exact List.mem_map_of_mem _ h2
      · exfalso
        apply hnd.1
        rw [← h2, ← hxy]
        exact List.mem_map_of_mem _ h1
      · exact ih hnd.2 x h1 y h2 hxy

/-- Error-free builders flatten to no errors. -/
theorem builders_errors_nil (es : List JSValue) :
    ((es.map (fun e => (⟨e, []⟩ : Builder))).map Builder.errors).flatten = ([] : List ValueError) := by
  induction es with
  | nil => rfl
  | cons e rest ih => simpa using ih

/-- Values of error-free builders. -/
theorem builders_values (es : List JSValue) :
    (es.map (fun e => (⟨e, []⟩ : Builder))).map Builder.value = es := by
  induction es with
  | nil => rfl
  | cons e rest ih => simpa using ih

/-- Error-free entry builders flatten to no errors. -/
theorem entries_errors_nil (g : String → JSValue) (keys : List String) :
    ((keys.map (fun k => (k, (⟨g k, []⟩ : Builder)))).map (fun kb => kb.2.errors)).flatten =
      ([] : List ValueError) := by
  induction keys with
  | nil => rfl
  | cons k rest ih => simpa using ih

/-- Values of error-free entry builders. -/
theorem entries_values (g : String → JSValue) (keys : List String) :
    (keys.map (fun k => (k, (⟨g k, []⟩ : Builder)))).map (fun kb => (kb.1, kb.2.value)) =
      keys.map (fun k => (k, g k)) := by
  induction keys with
  | nil => rfl
  | cons k rest ih => simpa using ih

/-- Error-free field outputs flatten to no errors. -/
theorem outs_errors_nil (g : String → JSValue) (fields : List (String × AType × Option JSValue)) :
    ((fields.map (fun f => (⟨f.1, false, [], g f.1⟩ : FieldOut))).map FieldOut.errors).flatten =
      ([] : List ValueError) := by
  induction fields with
  | nil => rfl
  | cons f rest ih => simpa using ih

/-- No field output is missing when all fields are present. -/
theorem outs_missing_nil (g : String → JSValue) (fields : List (String × AType × Option JSValue)) :
    (fields.map (fun f => (⟨f.1, false, [], g f.1⟩ : FieldOut))).filter FieldOut.missing = [] := by
  induction fields with
  | nil => rfl
  | cons f rest ih => simpa [List.filter_cons, FieldOut.missing] using ih

/-- Arguments of the field outputs. -/
theorem outs_args (g : String → JSValue) (fields : List (String × AType × Option JSValue)) :
    (fields.map (fun f => (⟨f.1, false, [], g f.1⟩ : FieldOut))).map FieldOut.arg =
      fields.map (fun f => g f.1) := by
  induction fields with
  | nil => rfl
  | cons f rest ih => simpa using ih

/-- Keys of a list keyed by its own elements. -/
theorem map_fst_keyed (g : String → JSValue) (keys : List String) :
    (keys.map (fun k => (k, g k))).map Prod.fst = keys := by
  induction keys with
  | nil => rfl
  | cons k rest ih => simpa using ih

/-- Keys of a field-keyed object are the field names. -/
theorem map_fst_fields (g : String → JSValue) (fields : List (String × AType × Option JSValue)) :
    (fields.map (fun f => (f.1, g f.1))).map Prod.fst = fields.map Prod.fst := by
  induction fields with
  | nil => rfl
  | cons f rest ih => simpa using ih

/-- Lookup in a field-keyed object. -/
theorem lookup_fields_keyed (g : String → JSValue) (fields : List (String × AType × Option JSValue))
    (k : String) (hk : k ∈ fields.map Prod.fst) :
    lookupFirst (fields.map (fun f => (f.1, g f.1))) k = some (g k) := by
  have hmm : fields.map (fun f => (f.1, g f.1)) =
      (fields.map Prod.fst).map (fun n2 => (n2, g n2)) := by
    simp [List.map_map, Function.comp]
  rw [hmm]
  exact lookupFirst_self_map g _ k hk
/-- Unfolding of the union case of the cloner for a non-null input. -/
theorem clone_union_notnull (c : Cloner) (wrapped : Bool) (bs : List AType) (v : JSValue)
    (path : List Step) (hne : v ≠ .vnull) :
    Cloner.clone c v (.tunion wrapped bs) path =
      orRaise
        ((if c.mode = .FROM_DEFAULT_JSON then
          (match bs with
           | [] => .error "TypeError: Cannot read properties of undefined (reading 'typeName')"
           | b0 :: _ =>
              if typeName b0 == "null" then
                .ok (.inl (Builder.empty.addError "does not match first (null)" v
                  (.tunion wrapped bs) path))
              else .ok (.inr (wrapBranch b0 v)))
        else if c.mode = .TO_JSON && !wrapped then
          (match branchTypeOf bs v with
           | none => .ok (.inl (Builder.empty.addError "is not a valid branch" v
              (.tunion wrapped bs) path))
           | some b0 => .ok (.inr (wrapBranch b0 v)))
        else .ok (.inr v) : Except String (Builder ⊕ JSValue)))
        ((fun s =>
          match s with
          | .inl b => .ok b
          | .inr any2 =>
            if jsTypeof any2 != "object" then
              .ok (Builder.empty.addError "is not an object" any2 (.tunion wrapped bs) path)
            else
              (match jsKeys any2 with
               | [key] =>
                  orRaise (Cloner.cloneBranch c wrapped bs key (jsGet any2 key) path) (fun ob =>
                    match ob with
                    | some b => .ok b
                    | none =>
                        .ok (Builder.empty.addError
                          ("contains an unknown branch (" ++ key ++ ")") any2
                          (.tunion wrapped bs) path))
               | keys =>
                  .ok (Builder.empty.addError
                    ("has " ++ toString keys.length ++ " keys (" ++
                      String.intercalate "," keys ++ ")")
                    any2 (.tunion wrapped bs) path)))) := by
  rw [Cloner.clone.eq_def]
  cases v
  case vnull => exact absurd rfl hne
  all_goals rfl

/-- Shape analysis of a valid union value: literal null with a null
branch, a single-key wrapped object, or a bucket-resolved bare value. -/
theorem isValidFor_union_elim (wrapped : Bool) (bs : List AType) (v : JSValue)
    (hv : isValidFor (.tunion wrapped bs) v = true) :
    (v = .vnull ∧ (bs.any (fun b => typeName b == "null")) = true) ∨
    (v ≠ .vnull ∧
      ((wrapped = true ∧ ∃ k x, v = .vobj [(k, x)] ∧ validWrapped bs k x = true) ∨
       (wrapped = false ∧ validUnwrapped bs v = true))) := by
  rw [isValidFor.eq_def] at hv
  cases wrapped with
  | false =>
      cases v
      case vnull => exact Or.inl ⟨rfl, hv⟩
      all_goals exact Or.inr ⟨by simp, Or.inr ⟨rfl, hv⟩⟩
  | true =>
      cases v
      case vnull => exact Or.inl ⟨rfl, hv⟩
      case vobj kvs =>
        match kvs with
        | [] => simp at hv
        | [(k, x)] => exact Or.inr ⟨by simp, Or.inl ⟨rfl, k, x, rfl, hv⟩⟩
        | (k1, x1) :: (k2, x2) :: rest => simp at hv
      all_goals simp at hv
set_option maxHeartbeats 4000000 in
/-- Round trip of the cloner on well-formed, logical-free types: a valid
value encodes to JSON with no errors and a non-undefined result, that
encoding decodes with no errors to a non-undefined value of the same
runtime bucket, and the decoded value compares structurally equal to the
original. -/
theorem clone_roundTrip :
    ∀ (N : Nat) (t : AType), sizeOf t ≤ N →
      wfType t = true → noLogical t = true →
      ∀ (v : JSValue), isValidFor t v = true →
      ∀ (p q : List Step),
      ∃ e w : JSValue,
        Cloner.clone ⟨.TO_JSON, false, false⟩ v t p = .ok ⟨e, []⟩ ∧ e ≠ .vundef ∧
        Cloner.clone ⟨.FROM_JSON, false, false⟩ e t q = .ok ⟨w, []⟩ ∧ w ≠ .vundef ∧
        jsBucket w = jsBucket v ∧ compareEq t v w = true := by
  intro N
  induction N with
  | zero => intro t ht; exfalso; cases t <;> simp at ht
  | succ n ih =>
      intro t ht hwf hnl v hv p q
      cases t with
      | tnull =>
          rw [isValidFor.eq_def] at hv
          cases v
          case vnull =>
            refine ⟨.vnull, .vnull, ?_, by simp, ?_, by simp, rfl, ?_⟩
            · rw [Cloner.clone.eq_def]
              simp [isValid]
            · rw [Cloner.clone.eq_def]
              simp [isValid]
            · rw [compareEq.eq_def]
          all_goals simp [isValid] at hv
      | tbool =>
          rw [isValidFor.eq_def] at hv
          cases v
          case vbool b =>
            refine ⟨.vbool b, .vbool b, ?_, by simp, ?_, by simp, rfl, ?_⟩
            · rw [Cloner.clone.eq_def]
              simp [isValid]
            · rw [Cloner.clone.eq_def]
              simp [isValid]
            · rw [compareEq.eq_def]
              simp
          all_goals simp [isValid] at hv
      | tint =>
          rw [isValidFor.eq_def] at hv
          cases v
          case vnum m =>
            simp only [isValid, Bool.and_eq_true, decide_eq_true_eq] at hv
            norm_num at hv
            refine ⟨.vnum m, .vnum m, ?_, by simp, ?_, by simp, rfl, ?_⟩
            · rw [Cloner.clone.eq_def]
              simp [isValid, hv.1, hv.2]
            · rw [Cloner.clone.eq_def]
              simp [isValid, hv.1, hv.2]
            · rw [compareEq.eq_def]
              simp
          all_goals simp [isValid] at hv
      | tstr =>
          rw [isValidFor.eq_def] at hv
          cases v
          case vstr s =>
            refine ⟨.vstr s, .vstr s, ?_, by simp, ?_, by simp, rfl, ?_⟩
            · rw [Cloner.clone.eq_def]
              simp [isValid]
            · rw [Cloner.clone.eq_def]
              simp [isValid]
            · rw [compareEq.eq_def]
              simp
          all_goals simp [isValid] at hv
      | tbytes =>
          rw [isValidFor.eq_def] at hv
          cases v
          case vbuf bs =>
            ?_
          all_goals simp at hv
          have hlt : ∀ b ∈ bs, b < 256 := by simpa using hv
          have hrt : strToBytes (bytesToStr bs) = bs := strToBytes_bytesToStr bs hlt
          refine ⟨.vstr (bytesToStr bs), .vbuf bs, ?_, by simp, ?_, by simp, rfl, ?_⟩
          · rw [Cloner.clone.eq_def]
            simp [isValid]
          · rw [Cloner.clone.eq_def]
            simp [isValid, hrt]
          · rw [compareEq.eq_def]
            simp
      | tfixed fnm k =>
          rw [isValidFor.eq_def] at hv
          cases v
          case vbuf bs =>
            ?_
          all_goals simp at hv
          obtain ⟨hlen, hlt⟩ : bs.length = k ∧ ∀ b ∈ bs, b < 256 := by simpa using hv
          have hrt : strToBytes (bytesToStr bs) = bs := strToBytes_bytesToStr bs hlt
          refine ⟨.vstr (bytesToStr bs), .vbuf bs, ?_, by simp, ?_, by simp, rfl, ?_⟩
          · rw [Cloner.clone.eq_def]
            simp [isValid, hlen]
          · rw [Cloner.clone.eq_def]
            simp [isValid, hrt, hlen]
          · rw [compareEq.eq_def]
            simp
      | tlogical nm toV fromV u =>
          rw [noLogical.eq_def] at hnl
          simp at hnl
      | tarr itemsType =>
          have hIT : sizeOf itemsType ≤ n := by
            have := AType.tarr.sizeOf_spec itemsType
            omega
          have hwfI : wfType itemsType = true := by
            rw [wfType.eq_def] at hwf
            exact hwf
          have hnlI : noLogical itemsType = true := by
            rw [noLogical.eq_def] at hnl
            exact hnl
          rw [isValidFor.eq_def] at hv
          cases v
          case varr xs =>
            obtain ⟨es, ws, hes, hws, hesne, hwsne, hcl⟩ :=
              cloneItems_roundTrip itemsType xs
                (fun x hx p2 q2 =>
                  ih itemsType hIT hwfI hnlI x (validItems_mem itemsType xs hv x hx) p2 q2)
                p 0 q 0
            refine ⟨.varr es, .varr ws, ?_, by simp, ?_, by simp, rfl, ?_⟩
            · rw [Cloner.clone.eq_def]
              simp only [hes, orRaise_pure, builders_errors_nil, builders_values,
                List.isEmpty_nil, if_true, reduceIte]
            · rw [Cloner.clone.eq_def]
              simp only [hws, orRaise_pure, builders_errors_nil, builders_values,
                List.isEmpty_nil, if_true, reduceIte]
            · rw [compareEq.eq_def]
              exact hcl
          all_goals simp at hv
      | tmap valuesType =>
          have hVT : sizeOf valuesType ≤ n := by
            have := AType.tmap.sizeOf_spec valuesType
            omega
          have hwfV : wfType valuesType = true := by
            rw [wfType.eq_def] at hwf
            exact hwf
          have hnlV : noLogical valuesType = true := by
            rw [noLogical.eq_def] at hnl
            exact hnl
          rw [isValidFor.eq_def] at hv
          cases v
          case vobj kvs =>
            have hvv : validValues valuesType kvs = true := hv
            have hmem : ∀ k ∈ sortStrings (kvs.map Prod.fst), k ∈ kvs.map Prod.fst :=
              fun k hk => (sortStrings_perm (kvs.map Prod.fst)).mem_iff.mp hk
            have H : ∀ k ∈ sortStrings (kvs.map Prod.fst), ∀ (p2 q2 : List Step),
                ∃ e w, Cloner.clone ⟨.TO_JSON, false, false⟩ ((lookupFirst kvs k).getD .vundef)
                    valuesType p2 = .ok ⟨e, []⟩ ∧ e ≠ .vundef ∧
                  Cloner.clone ⟨.FROM_JSON, false, false⟩ e valuesType q2 = .ok ⟨w, []⟩ ∧
                  w ≠ .vundef ∧ jsBucket w = jsBucket ((lookupFirst kvs k).getD .vundef) ∧
                  compareEq valuesType ((lookupFirst kvs k).getD .vundef) w = true :=
              fun k hk p2 q2 =>
                ih valuesType hVT hwfV hnlV _
                  (validValues_get valuesType kvs hvv k (hmem k hk)) p2 q2
            have Hc : ∀ k : String, ∃ e w, k ∈ sortStrings (kvs.map Prod.fst) →
                (Cloner.clone ⟨.TO_JSON, false, false⟩ ((lookupFirst kvs k).getD .vundef)
                    valuesType (p ++ [.fld k]) = .ok ⟨e, []⟩ ∧ e ≠ .vundef ∧
                  Cloner.clone ⟨.FROM_JSON, false, false⟩ e valuesType (q ++ [.fld k]) =
                    .ok ⟨w, []⟩ ∧ w ≠ .vundef ∧
                  jsBucket w = jsBucket ((lookupFirst kvs k).getD .vundef) ∧
                  compareEq valuesType ((lookupFirst kvs k).getD .vundef) w = true) := by
              intro k
              by_cases hk : k ∈ sortStrings (kvs.map Prod.fst)
              · obtain ⟨e, w, hx⟩ := H k hk (p ++ [.fld k]) (q ++ [.fld k])
                exact ⟨e, w, fun _ => hx⟩
              · exact ⟨.vundef, .vundef, fun hcon => absurd hcon hk⟩
            choose g h hg using Hc
            have hce : Cloner.cloneEntries ⟨.TO_JSON, false, false⟩ (.vobj kvs)
                (sortStrings (kvs.map Prod.fst)) valuesType p =
                .ok ((sortStrings (kvs.map Prod.fst)).map (fun k => (k, ⟨g k, []⟩))) :=
              cloneEntries_fun _ _ _ g _ p (fun k hk => (hg k hk).1)
            have hgetE : ∀ k ∈ sortStrings (kvs.map Prod.fst),
                jsGet (.vobj ((sortStrings (kvs.map Prod.fst)).map (fun k2 => (k2, g k2)))) k =
                  g k := by
              intro k hk
              simp only [jsGet, lookupFirst_self_map g _ k hk, Option.getD_some]
            have hce2 : Cloner.cloneEntries ⟨.FROM_JSON, false, false⟩
                (.vobj ((sortStrings (kvs.map Prod.fst)).map (fun k2 => (k2, g k2))))
                (sortStrings (kvs.map Prod.fst)) valuesType q =
                .ok ((sortStrings (kvs.map Prod.fst)).map (fun k => (k, ⟨h k, []⟩))) := by
              refine cloneEntries_fun _ _ _ h _ q (fun k hk => ?_)
              rw [hgetE k hk]
              exact (hg k hk).2.2.1
            refine ⟨.vobj ((sortStrings (kvs.map Prod.fst)).map (fun k => (k, g k))),
              .vobj ((sortStrings (kvs.map Prod.fst)).map (fun k => (k, h k))),
              ?_, by simp, ?_, by simp, rfl, ?_⟩
            · rw [Cloner.clone.eq_def]
              simp only [jsTruthy, jsTypeof, jsKeys, Bool.not_true, String.reduceBNe,
                Bool.or_self, Bool.false_eq_true, if_false, reduceIte, hce, orRaise_pure,
                entries_errors_nil, entries_values, List.isEmpty_nil, if_true]
            · rw [Cloner.clone.eq_def]
              simp only [jsTruthy, jsTypeof, jsKeys, Bool.not_true, String.reduceBNe,
                Bool.or_self, Bool.false_eq_true, if_false, reduceIte, map_fst_keyed,
                sortStrings_idem, hce2, orRaise_pure, entries_errors_nil, entries_values,
                List.isEmpty_nil, if_true]
            · rw [compareEq.eq_def]
              simp only [map_fst_keyed, sortStrings_idem, beq_self_eq_true, Bool.true_and]
              refine compareEqKeys_of valuesType kvs _ (kvs.map Prod.fst) (fun k hk => ?_)
              have hk2 : k ∈ sortStrings (kvs.map Prod.fst) :=
                (sortStrings_perm (kvs.map Prod.fst)).mem_iff.mpr hk
              rw [show lookupFirst ((sortStrings (kvs.map Prod.fst)).map (fun k2 => (k2, h k2))) k
                  = some (h k) from lookupFirst_self_map h _ k hk2]
              simpa using (hg k hk2).2.2.2.2.2
          all_goals simp at hv
      | trec nm isErr fields =>
          have hFsize : ∀ f ∈ fields, sizeOf (f.2.1) ≤ n := by
            intro f hfm
            have h1 := List.sizeOf_lt_of_mem hfm
            have h2 := AType.trec.sizeOf_spec nm isErr fields
            obtain ⟨n1, fty, dflt⟩ := f
            simp only [Prod.mk.sizeOf_spec] at h1
            simp only
            omega
          rw [wfType.eq_def] at hwf
          rw [noLogical.eq_def] at hnl
          have hwf2 : (decide ((fields.map Prod.fst).Nodup) && wfFields fields) = true := hwf
          simp only [Bool.and_eq_true, decide_eq_true_eq] at hwf2
          obtain ⟨hnd, hwfF⟩ := hwf2
          have hnlF : noLogicalFields fields = true := hnl
          rw [isValidFor.eq_def] at hv
          cases v
          case vobj kvs =>
            have hv2 : (((kvs.map Prod.fst).all (fun k => fields.any (fun f => f.1 == k))) &&
                validFields fields kvs) = true := hv
            simp only [Bool.and_eq_true] at hv2
            obtain ⟨hdecl, hvF⟩ := hv2
            have Hfield : ∀ f ∈ fields, ∀ (p2 q2 : List Step),
                ∃ e w, Cloner.clone ⟨.TO_JSON, false, false⟩
                    ((lookupFirst kvs f.1).getD .vundef) f.2.1 p2 = .ok ⟨e, []⟩ ∧
                  e ≠ .vundef ∧
                  Cloner.clone ⟨.FROM_JSON, false, false⟩ e f.2.1 q2 = .ok ⟨w, []⟩ ∧
                  w ≠ .vundef ∧
                  jsBucket w = jsBucket ((lookupFirst kvs f.1).getD .vundef) ∧
                  compareEq f.2.1 ((lookupFirst kvs f.1).getD .vundef) w = true :=
              fun f hf p2 q2 =>
                ih f.2.1 (hFsize f hf) (wfFields_mem fields hwfF f hf)
                  (noLogicalFields_mem fields hnlF f hf) _
                  (validFields_mem fields kvs hvF f hf) p2 q2
            have Hc : ∀ k : String, ∃ e w, ∀ f ∈ fields, f.1 = k →
                (Cloner.clone ⟨.TO_JSON, false, false⟩
                    ((lookupFirst kvs f.1).getD .vundef) f.2.1 (p ++ [.fld f.1]) =
                    .ok ⟨e, []⟩ ∧ e ≠ .vundef ∧
                  Cloner.clone ⟨.FROM_JSON, false, false⟩ e f.2.1 (q ++ [.fld f.1]) =
                    .ok ⟨w, []⟩ ∧ w ≠ .vundef ∧
                  jsBucket w = jsBucket ((lookupFirst kvs f.1).getD .vundef) ∧
                  compareEq f.2.1 ((lookupFirst kvs f.1).getD .vundef) w = true) := by
              intro k
              by_cases hk : ∃ f, f ∈ fields ∧ f.1 = k
              · obtain ⟨f0, hf0, hk0⟩ := hk
                obtain ⟨e, w, hx⟩ := Hfield f0 hf0 (p ++ [.fld f0.1]) (q ++ [.fld f0.1])
                refine ⟨e, w, fun f hf hfk => ?_⟩
                have hef : f = f0 :=
                  nodupFields_eq fields hnd f hf f0 hf0 (by rw [hfk, hk0])
                rw [hef]
                exact hx
              · exact ⟨.vundef, .vundef, fun f hf hfk => absurd ⟨f, hf, hfk⟩ hk⟩
            choose g h hg using Hc
            have hgne : ∀ f ∈ fields, g f.1 ≠ .vundef :=
              fun f hf => (hg f.1 f hf rfl).2.1
            have hhne : ∀ f ∈ fields, h f.1 ≠ .vundef :=
              fun f hf => (hg f.1 f hf rfl).2.2.2.1
            have hvne : ∀ f ∈ fields, isUndef (jsGet (.vobj kvs) f.1) = false := by
              intro f hf
              exact isUndef_eq_false _
                (valid_ne_undef f.2.1 (noLogicalFields_mem fields hnlF f hf) _
                  (validFields_mem fields kvs hvF f hf))
            have hcf : Cloner.cloneFields ⟨.TO_JSON, false, false⟩ (.vobj kvs) fields p =
                .ok (fields.map (fun f => ⟨f.1, false, [], g f.1⟩)) :=
              cloneFields_fun _ _ g rfl fields p hvne (fun f hf => (hg f.1 f hf rfl).1)
            have hextra : (kvs.map Prod.fst).filter
                (fun k => !(fields.any (fun f => f.1 == k))) = [] :=
              undeclared_filter_nil fields _ hdecl
            have hgetE : ∀ f ∈ fields,
                jsGet (.vobj (fields.map (fun f2 => (f2.1, g f2.1)))) f.1 = g f.1 := by
              intro f hf
              simp only [jsGet,
                lookup_fields_keyed g fields f.1 (List.mem_map_of_mem Prod.fst hf),
                Option.getD_some]
            have hcf2 : Cloner.cloneFields ⟨.FROM_JSON, false, false⟩
                (.vobj (fields.map (fun f2 => (f2.1, g f2.1)))) fields q =
                .ok (fields.map (fun f => ⟨f.1, false, [], h f.1⟩)) := by
              refine cloneFields_fun _ _ h rfl fields q (fun f hf => ?_) (fun f hf => ?_)
              · rw [hgetE f hf]
                exact isUndef_eq_false _ (hgne f hf)
              · rw [hgetE f hf]
                exact (hg f.1 f hf rfl).2.2.1
            have hextra2 : ((fields.map Prod.fst).filter
                (fun k => !(fields.any (fun f => f.1 == k)))) = [] :=
              undeclared_filter_nil fields _ (names_all_declared fields)
            refine ⟨.vobj (fields.map (fun f => (f.1, g f.1))),
              .vobj (fields.map (fun f => (f.1, h f.1))),
              ?_, by simp, ?_, by simp, rfl, ?_⟩
            · rw [Cloner.clone.eq_def]
              simp only [jsTruthy, jsTypeof, jsKeys, Bool.not_true, String.reduceBNe,
                Bool.or_self, Bool.false_eq_true, if_false, reduceIte, hextra,
                List.isEmpty_nil, if_true, hcf, orRaise_pure, outs_missing_nil,
                outs_errors_nil, List.map_nil, List.nil_append, List.append_nil,
                jsonRecordValue_map g fields hgne]
            · rw [Cloner.clone.eq_def]
              simp only [jsTruthy, jsTypeof, jsKeys, Bool.not_true, String.reduceBNe,
                Bool.or_self, Bool.false_eq_true, if_false, reduceIte, reduceCtorEq,
                map_fst_fields,
                hextra2, List.isEmpty_nil, if_true, hcf2, orRaise_pure, outs_missing_nil,
                outs_errors_nil, List.map_nil, List.nil_append, List.append_nil, outs_args,
                recordNew_map h fields hhne]
            · rw [compareEq.eq_def]
              refine compareEqFields_of kvs _ fields (fun f hf => ?_)
              rw [show lookupFirst (fields.map (fun f2 => (f2.1, h f2.1))) f.1 = some (h f.1)
                from lookup_fields_keyed h fields f.1 (List.mem_map_of_mem Prod.fst hf)]
              simpa using (hg f.1 f hf rfl).2.2.2.2.2
          all_goals simp at hv
      | tunion wrapped bs =>
          have hBsize : ∀ b2 ∈ bs, sizeOf b2 ≤ n := by
            intro b2 hb2
            have h1 := List.sizeOf_lt_of_mem hb2
            have h2 := AType.tunion.sizeOf_spec wrapped bs
            omega
          rw [wfType.eq_def] at hwf
          rw [noLogical.eq_def] at hnl
          have hwf2 : (decide ((bs.map branchName).Nodup) && wfBranches bs) = true := hwf
          simp only [Bool.and_eq_true, decide_eq_true_eq] at hwf2
          obtain ⟨hnd, hwfB⟩ := hwf2
          have hnlB : noLogicalBranches bs = true := hnl
          rcases isValidFor_union_elim wrapped bs v hv with ⟨hvn, hnull⟩ | ⟨hne, hcase⟩
          · subst hvn
            refine ⟨.vnull, .vnull, ?_, by simp, ?_, by simp, rfl, ?_⟩
            · rw [Cloner.clone.eq_def]
              simp only [hnull, if_true, reduceIte]
            · rw [Cloner.clone.eq_def]
              simp only [hnull, if_true, reduceIte]
            · cases wrapped <;> rw [compareEq.eq_def]
          · rcases hcase with ⟨hwr, k, x, hvx, hvw⟩ | ⟨hwr, hvu⟩
            · -- wrapped union, single-key object value
              subst hwr
              subst hvx
              obtain ⟨b0, hb0mem, hbn, hvx2⟩ := validWrapped_elim k x bs hvw
              obtain ⟨e0, w0, he0, hene, hw0, hwne, hbw, hcmp⟩ :=
                ih b0 (hBsize b0 hb0mem) (wfBranches_mem bs hwfB b0 hb0mem).2
                  (noLogicalBranches_mem bs hnlB b0 hb0mem) x hvx2
                  (p ++ [.fld k]) (q ++ [.fld k])
              have hfound := cloneBranch_found ⟨.TO_JSON, false, false⟩ true k x e0 p bs b0
                hb0mem hnd hbn he0
              have hfound2 := cloneBranch_found ⟨.FROM_JSON, false, false⟩ true k e0 w0 q bs b0
                hb0mem hnd hbn hw0
              refine ⟨.vobj [(k, e0)], .vobj [(k, w0)], ?_, by simp, ?_, by simp, rfl, ?_⟩
              · rw [clone_union_notnull _ _ _ _ _ (by simp)]
                simp only [reduceCtorEq, reduceIte, if_false, Bool.not_true, Bool.and_false,
                  Bool.false_eq_true, orRaise_pure, jsTypeof, jsKeys, String.reduceBNe,
                  bne_self_eq_false, if_true, List.map_cons, List.map_nil, jsGet,
                  lookupFirst, beq_self_eq_true, reduceIte, Option.getD_some]
                simp only [show lookupFirst [(k, x)] k = some x by simp [lookupFirst],
                  Option.getD_some, hfound, orRaise_pure, hbn]
                simp
              · rw [clone_union_notnull _ _ _ _ _ (by simp)]
                simp only [reduceCtorEq, reduceIte, if_false, Bool.not_true, Bool.and_false,
                  Bool.false_eq_true, Bool.decide_eq_true, decide_False, Bool.false_and,
                  orRaise_pure, jsTypeof, jsKeys, String.reduceBNe, bne_self_eq_false,
                  if_true, List.map_cons, List.map_nil]
                simp only [show lookupFirst [(k, e0)] k = some e0 by simp [lookupFirst],
                  jsGet, Option.getD_some, hfound2, orRaise_pure, reduceCtorEq, reduceIte,
                  Bool.not_true, Bool.false_eq_true, if_false, wrapBranch, hbn]
              · rw [compareEq.eq_def]
                simp only [beq_self_eq_true, Bool.true_and]
                exact compareEqWrapped_of k x w0 bs b0 hb0mem hnd hbn hcmp
            · -- unwrapped union, bucket-resolved branch
              subst hwr
              obtain ⟨b0, hbt, hvb⟩ := validUnwrapped_elim v bs hvu
              have hb0mem : b0 ∈ bs := by
                simp only [branchTypeOf] at hbt
                exact List.mem_of_find?_eq_some hbt
              obtain ⟨e0, w0, he0, hene, hw0, hwne, hbw, hcmp⟩ :=
                ih b0 (hBsize b0 hb0mem) (wfBranches_mem bs hwfB b0 hb0mem).2
                  (noLogicalBranches_mem bs hnlB b0 hb0mem) v hvb
                  (p ++ [.fld (branchName b0)]) (q ++ [.fld (branchName b0)])
              have hfound := cloneBranch_found ⟨.TO_JSON, false, false⟩ false (branchName b0)
                v e0 p bs b0 hb0mem hnd rfl he0
              have hfound2 := cloneBranch_found ⟨.FROM_JSON, false, false⟩ false (branchName b0)
                e0 w0 q bs b0 hb0mem hnd rfl hw0
              refine ⟨.vobj [(branchName b0, e0)], w0, ?_, by simp, ?_, hwne, hbw, ?_⟩
              · rw [clone_union_notnull _ _ _ _ _ hne]
                simp only [reduceCtorEq, reduceIte, if_false, Bool.not_false, Bool.and_true,
                  decide_True, Bool.true_and, if_true, hbt, orRaise_pure, wrapBranch,
                  jsTypeof, jsKeys, String.reduceBNe, bne_self_eq_false, Bool.false_eq_true,
                  List.map_cons, List.map_nil]
                simp only [show lookupFirst [(branchName b0, v)] (branchName b0) = some v by
                    simp [lookupFirst],
                  jsGet, Option.getD_some, hfound, orRaise_pure, reduceIte]
              · rw [clone_union_notnull _ _ _ _ _ (by simp)]
                simp only [reduceCtorEq, reduceIte, if_false, Bool.not_false, Bool.and_true,
                  decide_False, Bool.false_and, Bool.false_eq_true, orRaise_pure, jsTypeof,
                  jsKeys, String.reduceBNe, bne_self_eq_false, if_true, List.map_cons,
                  List.map_nil]
                simp only [show lookupFirst [(branchName b0, e0)] (branchName b0) = some e0 by
                    simp [lookupFirst],
                  jsGet, Option.getD_some, hfound2, orRaise_pure, reduceCtorEq, reduceIte,
                  Bool.not_false, Bool.false_eq_true, if_false, if_true]
              · rw [compareEq.eq_def]
                have hcu := compareEqUnwrapped_of v w0 hbw bs b0 hbt hcmp
                cases v
                case vnull => exact absurd rfl hne
                all_goals exact hcu

/-- Claim C1 (amended): for every well-formed type T containing no
logical type and every value v valid under T, decodeFromJSON of
encodeToJSON of v (default options, so omitDefaultValues is off and no
field is elided) succeeds and returns a value structurally equal to v
under the type-directed comparison that ignores map key order. -/
theorem roundtrip_decode_encode :
    ∀ (t : AType), wfType t = true → noLogical t = true →
      ∀ (v : JSValue), isValidFor t v = true →
      ∃ e w : JSValue, toJSON v t ⟨false, false⟩ = .ok e ∧
        fromJSON e t ⟨false, false⟩ = .ok w ∧
        compareEq t v w = true := by
  intro t hwf hnl v hv
  obtain ⟨e, w, he, hene, hwq, hwne, hbw, hcmp⟩ :=
    clone_roundTrip (sizeOf t) t (le_refl _) hwf hnl v hv [] []
  refine ⟨e, w, ?_, ?_, hcmp⟩
  · simp only [toJSON, cloneRoot, mkCloner, Bool.false_and, Bool.false_eq_true, if_false,
      reduceIte, he, Builder.build, Builder.errors, Builder.value]
  · simp only [fromJSON, cloneRoot, mkCloner, Bool.false_and, Bool.false_eq_true, if_false,
      reduceIte, hwq, Builder.build, Builder.errors, Builder.value]

/-- Counterexample to claim C1 as stated: a logical type whose two hooks
are not mutually inverse (encode hook the identity over int, decode hook
constantly 6) transcodes the valid value 5 to JSON as 5, but decoding
that encoding returns 6, which is not structurally equal to 5 — so the
round trip can fail for types containing logical types even with
omitDefaultValues off. -/
theorem roundtrip_fails_for_logical :
    ∃ (t : AType) (v e w : JSValue),
      isValidFor t v = true ∧
      toJSON v t ⟨false, false⟩ = .ok e ∧
      fromJSON e t ⟨false, false⟩ = .ok w ∧
      w ≠ v ∧ compareEq t v w = false := by
  refine ⟨.tlogical "identity6" (fun a => .ok a) (fun _ => .ok (.vnum 6)) .tint,
    .vnum 5, .vnum 5, .vnum 6, ?_, ?_, ?_, by simp, ?_⟩
  · simp [isValidFor, isValid, isUndef]
  · simp [toJSON, cloneRoot, mkCloner, Cloner.clone, isValid, Builder.build]
  · simp [fromJSON, cloneRoot, mkCloner, Cloner.clone, isValid, Builder.build, orRaise]
  · simp [compareEq]

/-- Witness for claim C1 (amended form): the single-int-field record
round-trips a concrete value. -/
theorem roundtrip_decode_encode_witness :
    wfType (.trec "R" false [("a", .tint, none)]) = true ∧
    isValidFor (.trec "R" false [("a", .tint, none)]) (.vobj [("a", .vnum 1)]) = true ∧
    ∃ e w : JSValue,
      toJSON (.vobj [("a", .vnum 1)]) (.trec "R" false [("a", .tint, none)]) ⟨false, false⟩ =
        .ok e ∧
      fromJSON e (.trec "R" false [("a", .tint, none)]) ⟨false, false⟩ = .ok w ∧
      compareEq (.trec "R" false [("a", .tint, none)]) (.vobj [("a", .vnum 1)]) w = true := by
  have h1 : wfType (.trec "R" false [("a", .tint, none)]) = true := by
    simp [wfType, wfFields]
  have h2 : noLogical (.trec "R" false [("a", .tint, none)]) = true := by
    simp [noLogical, noLogicalFields]
  have h3 : isValidFor (.trec "R" false [("a", .tint, none)]) (.vobj [("a", .vnum 1)]) = true := by
    simp [isValidFor, validFields, lookupFirst, isValid]
  exact ⟨h1, h3, roundtrip_decode_encode _ h1 h2 _ h3⟩

end Avsc
